import Mathlib

/-!
Verification development for the watch-fit repository.

Part 1 models the only source file, `src/apps/minimal/main/main.cpp`:
`app_main` issues a single `xTaskCreate` call (discarding its return value)
for a task whose body loops forever logging one message and delaying
1000 ms worth of ticks.

Part 2 models, from the specification (no such code exists under `src/`),
the cooperative task-and-timer scheduling core: Ready Queue, Timer Wheel,
Scheduler, and Task Control Block Registry, together with the operations
`spawn`, `terminate`, `sleep_for`, `yield_now` and the tick advance.
-/

namespace WatchFit

/-! ### Part 1: model of src/apps/minimal/main/main.cpp -/

/-- An observable action performed by the program against the RTOS /
logging collaborators.  `createTask` records the arguments of an
`xTaskCreate` call (`paramIsNull` records that the `void*` argument was
`nullptr`); `logInfo` is an `ESP_LOGI` call; `delayMsTicks ms` is
`vTaskDelay (pdMS_TO_TICKS ms)`. -/
inductive Action where
  | createTask (name : String) (stackDepth : Nat) (paramIsNull : Bool) (priority : Nat)
  | logInfo (tag : String) (msg : String)
  | delayMsTicks (ms : Nat)
deriving DecidableEq

/-- `tskIDLE_PRIORITY` from FreeRTOS. -/
def tskIDLE_PRIORITY : Nat := 0

/-- `static const char* TAG = "app";` -/
def TAG : String := "app"

/-- One iteration of the task lambda's `while (true)` body.  The lambda
is declared `[](void*)` with an unnamed, unused parameter, so the body
ignores `param`; every iteration is the same, so the iteration index `i`
is also unused. -/
def taskBodyIteration (param : Option Nat) (i : Nat) : List Action :=
  [Action.logInfo TAG "Hello from C++ FreeRTOS task", Action.delayMsTicks 1000]

/-- The outcome of running `app_main`, parameterised by whether the
`xTaskCreate` call succeeds (its `pdPASS`/`errCOULD_NOT_ALLOCATE_REQUIRED_MEMORY`
result, which `app_main` discards). -/
structure AppMainOutcome where
  actions : List Action
  tasksSpawned : Nat
  returnsNormally : Bool
deriving DecidableEq

/-- `app_main`: one `xTaskCreate("blinker", 4096, nullptr, tskIDLE_PRIORITY + 1)`
call and nothing else; the return value of `xTaskCreate` is not inspected,
so the action list and normal return do not depend on `createSucceeds`. -/
def app_main (createSucceeds : Bool) : AppMainOutcome :=
  { actions := [Action.createTask "blinker" 4096 true (tskIDLE_PRIORITY + 1)]
    tasksSpawned := if createSucceeds then 1 else 0
    returnsNormally := true }

/-! ### Part 2: the cooperative task-and-timer scheduling core

All definitions in this part are modelled from the spec: the repository
contains no scheduler code under `src/`, only the trivial entry point, so
the spec's Ready Queue / Timer Wheel / Scheduler / TCB Registry design is
embedded here from its words (spec sections 3-7). -/

/-- Modelled from the spec: TCB state, one of
{Ready, Running, Blocked, Sleeping, Terminated} (spec section 3). -/
inductive TaskState where
  | Ready | Running | Blocked | Sleeping | Terminated
deriving DecidableEq

/-- Modelled from the spec: the error taxonomy of section 7. -/
inductive SchedError where
  | OutOfMemory | InvalidHandle | InvalidTaskState | EmptyQueue
deriving DecidableEq

/-- Modelled from the spec: a Task Control Block — static priority, state,
wake tick (valid only while Sleeping), and the size of its reserved stack
region (spec section 3).  The saved execution context is opaque to the
scheduler and carries no information the core branches on, so it is not
represented. -/
structure TCB where
  priority : Nat
  state : TaskState
  wakeTick : Nat
  stackSize : Nat
deriving DecidableEq

/-- Modelled from the spec: the scheduler context object of section 9 —
logical tick counter, TCB Registry (association list handle ↦ TCB),
Ready Queue (list of (priority, handle) pairs, FIFO within each priority
level), Timer Wheel (list of (handle, wakeTick) pairs, ascending by wake
tick, ties in insertion order), the currently-running slot (`none` means
the reserved Idle task is running), the next fresh handle, and the free
bytes of the process-wide stack arena. -/
structure Core where
  tick : Nat
  regs : List (Nat × TCB)
  rq : List (Nat × Nat)
  wheel : List (Nat × Nat)
  running : Option Nat
  nextH : Nat
  arena : Nat
deriving DecidableEq

/-- Registry lookup: the TCB registered under handle `h`, if any. -/
def lookup (regs : List (Nat × TCB)) (h : Nat) : Option TCB :=
  (regs.find? (fun e => e.1 == h)).map (fun e => e.2)

/-- Update the TCB registered under `h` by `f` (no-op on other handles). -/
def updReg (regs : List (Nat × TCB)) (h : Nat) (f : TCB → TCB) : List (Nat × TCB) :=
  regs.map (fun e => if e.1 == h then (e.1, f e.2) else e)

/-- The registered state of handle `h`, if registered. -/
def stateOf (regs : List (Nat × TCB)) (h : Nat) : Option TaskState :=
  (lookup regs h).map (fun t => t.state)

/-- The priority of handle `h` (0 when unregistered). -/
def prioOf (regs : List (Nat × TCB)) (h : Nat) : Nat :=
  match lookup regs h with
  | some t => t.priority
  | none => 0

/-- The wake tick of handle `h` (0 when unregistered). -/
def wakeOf (regs : List (Nat × TCB)) (h : Nat) : Nat :=
  match lookup regs h with
  | some t => t.wakeTick
  | none => 0

/-- TCB updater: set the task state. -/
def setTCBState (st : TaskState) : TCB → TCB :=
  fun u => { u with state := st }

/-- TCB updater: set the task Sleeping with the given wake tick. -/
def setTCBSleep (wake : Nat) : TCB → TCB :=
  fun u => { u with state := TaskState.Sleeping, wakeTick := wake }

/-- Modelled from the spec: `enqueue(task, priority)` appends at the tail
of that priority's sequence (spec section 4.3). -/
def rqEnqueue (rq : List (Nat × Nat)) (p h : Nat) : List (Nat × Nat) :=
  rq ++ [(p, h)]

/-- The highest priority present in the Ready Queue (0 when empty). -/
def maxPrio (rq : List (Nat × Nat)) : Nat :=
  rq.foldr (fun e m => max e.1 m) 0

/-- The first entry of the highest non-empty priority sequence. -/
def findHighest (rq : List (Nat × Nat)) : Option (Nat × Nat) :=
  rq.find? (fun e => e.1 == maxPrio rq)

/-- Remove every entry for handle `h` from the Ready Queue. -/
def rqRemove (rq : List (Nat × Nat)) (h : Nat) : List (Nat × Nat) :=
  rq.filter (fun e => e.2 != h)

/-- Modelled from the spec: `dequeue_highest()` returns and removes the
head of the highest non-empty priority sequence, failing with
`EmptyQueue` when nothing is runnable (spec section 4.3). -/
def dequeue_highest (rq : List (Nat × Nat)) :
    Except SchedError ((Nat × Nat) × List (Nat × Nat)) :=
  match findHighest rq with
  | none => Except.error SchedError.EmptyQueue
  | some e => Except.ok (e, rq.erase e)

/-- Modelled from the spec: Timer Wheel insertion ordered by wake tick
ascending, a new entry going after every entry with an equal or smaller
wake tick, so equal wake ticks keep insertion order (spec sections 3, 4.2). -/
def twInsert (e : Nat × Nat) : List (Nat × Nat) → List (Nat × Nat)
  | [] => [e]
  | x :: xs => if x.2 ≤ e.2 then x :: twInsert e xs else e :: x :: xs

/-- Remove every entry for handle `h` from the Timer Wheel. -/
def twRemove (w : List (Nat × Nat)) (h : Nat) : List (Nat × Nat) :=
  w.filter (fun e => e.1 != h)

/-- Transition handle `h` to Ready and enqueue it at the tail of the Ready
Queue sequence for its priority (one Timer Wheel expiry step). -/
def releaseOne (s : Core) (h : Nat) : Core :=
  { s with
    regs := updReg s.regs h (setTCBState TaskState.Ready)
    rq := rqEnqueue s.rq (prioOf s.regs h) h }

/-- Worker for `expire`: peels expired entries off the head of the wheel
(the first list argument mirrors the state's wheel). -/
def expireGo (t : Nat) : List (Nat × Nat) → Core → Core
  | [], s => s
  | e :: rest, s =>
    if e.2 ≤ t then expireGo t rest (releaseOne { s with wheel := rest } e.1)
    else s

/-- Modelled from the spec: `expire(tick)` removes and returns all entries
with `wake_tick <= tick`, transitioning each to Ready and enqueuing into
the Ready Queue at its priority level, tail position (spec section 4.2).
Since the wheel is kept ascending by wake tick, the expired entries form
the longest such head segment. -/
def expire (t : Nat) (s : Core) : Core :=
  expireGo t s.wheel s

/-- Modelled from the spec: `schedule()` — picks the head of the highest
priority sequence; if its priority is strictly greater than the running
task's priority, or no task occupies the running slot, a context switch is
performed (the preempted task is demoted to Ready at the tail of its
priority's sequence); equal-priority tasks never preempt each other
(spec section 4.4).  When the Ready Queue is empty the running slot is
left as it is — in particular the Idle task (`running = none`) keeps
running, so `EmptyQueue` never escapes the scheduler. -/
def schedule (s : Core) : Core :=
  match findHighest s.rq with
  | none => s
  | some e =>
    match s.running with
    | none =>
      { s with
        rq := s.rq.erase e
        regs := updReg s.regs e.2 (setTCBState TaskState.Running)
        running := some e.2 }
    | some r =>
      if prioOf s.regs r < e.1 then
        { s with
          rq := rqEnqueue (s.rq.erase e) (prioOf s.regs r) r
          regs := updReg
            (updReg s.regs e.2 (setTCBState TaskState.Running))
            r (setTCBState TaskState.Ready)
          running := some e.2 }
      else s

/-- Modelled from the spec: the Tick Source's `advance()` — increments the
logical tick counter by one, invokes the Timer Wheel's `expire(tick)`, and
the Scheduler's yield check runs before the interrupted context resumes
(spec sections 4.1, 4.4). -/
def advance (s : Core) : Core :=
  schedule (expire (s.tick + 1) { s with tick := s.tick + 1 })

/-- Iterated tick advance. -/
def advanceIter : Nat → Core → Core
  | 0, s => s
  | k + 1, s => advanceIter k (advance s)

/-- Modelled from the spec: `spawn(entry, priority, stack_size)` reserves
a stack region from the arena (failing with `OutOfMemory` when it cannot),
registers a fresh handle, and makes the new task Ready at the tail of its
priority's sequence (spec sections 3, 4.5, 6). -/
def spawn (s : Core) (prio stackSize : Nat) : Except SchedError (Nat × Core) :=
  if stackSize ≤ s.arena then
    Except.ok (s.nextH,
      { s with
        regs := (s.nextH, ⟨prio, TaskState.Ready, 0, stackSize⟩) :: s.regs
        rq := rqEnqueue s.rq prio s.nextH
        nextH := s.nextH + 1
        arena := s.arena - stackSize })
  else Except.error SchedError.OutOfMemory

/-- Modelled from the spec: `terminate(handle)` fails with `InvalidHandle`
on an unknown or already-Terminated handle with no side effect; otherwise
it removes the TCB from whichever structure holds it, reclaims its stack,
marks it Terminated, and, when the Running task was terminated, triggers
an immediate `schedule()` (spec sections 4.5, 5). -/
def terminate (s : Core) (h : Nat) : Except SchedError Core :=
  match lookup s.regs h with
  | none => Except.error SchedError.InvalidHandle
  | some t =>
    if t.state = TaskState.Terminated then Except.error SchedError.InvalidHandle
    else
      let s1 : Core :=
        { s with
          regs := updReg s.regs h (setTCBState TaskState.Terminated)
          rq := rqRemove s.rq h
          wheel := twRemove s.wheel h
          arena := s.arena + t.stackSize
          running := if s.running = some h then none else s.running }
      Except.ok (if s.running = some h then schedule s1 else s1)

/-- Modelled from the spec: `sleep_until(task, wake_tick)` moves `task`
from Running/Ready to Sleeping, removing it from the Ready Queue if
present and inserting into the wheel ordered by wake tick; it fails with
`InvalidHandle` on an unknown handle and with `InvalidTaskState` when the
task is not in a Running/Ready state (spec section 4.2).  Suspending the
caller triggers `schedule()` (spec section 6). -/
def sleep_until (s : Core) (h wake : Nat) : Except SchedError Core :=
  match lookup s.regs h with
  | none => Except.error SchedError.InvalidHandle
  | some t =>
    if t.state = TaskState.Running ∨ t.state = TaskState.Ready then
      let s1 : Core :=
        { s with
          regs := updReg s.regs h (setTCBSleep wake)
          rq := rqRemove s.rq h
          wheel := twInsert (h, wake) s.wheel
          running := if s.running = some h then none else s.running }
      Except.ok (if s.running = some h then schedule s1 else s1)
    else Except.error SchedError.InvalidTaskState

/-- Modelled from the spec: `sleep_for(ticks)` wraps `sleep_until` at
`current tick + ticks` (spec section 6). -/
def sleep_for (s : Core) (h n : Nat) : Except SchedError Core :=
  sleep_until s h (s.tick + n)

/-- Modelled from the spec: `yield_now()` — voluntary reschedule at the
same priority; the caller moves to the tail of its priority's sequence and
`schedule()` runs (spec section 6). -/
def yield_now (s : Core) : Core :=
  match s.running with
  | none => schedule s
  | some r =>
    schedule
      { s with
        regs := updReg s.regs r (setTCBState TaskState.Ready)
        rq := rqEnqueue s.rq (prioOf s.regs r) r
        running := none }

/-- One call against the core, as issued by clients and the tick source. -/
inductive Op where
  | spawn (prio stackSize : Nat)
  | terminate (h : Nat)
  | sleepFor (h n : Nat)
  | yieldNow
  | tick
deriving DecidableEq

/-- Apply one call; a failing call reports its error to the caller and
leaves the core unchanged (spec section 7: handle errors are local,
recoverable, no state change). -/
def step (s : Core) : Op → Core
  | Op.spawn p k =>
    match spawn s p k with
    | Except.ok pr => pr.2
    | Except.error _ => s
  | Op.terminate h =>
    match terminate s h with
    | Except.ok s1 => s1
    | Except.error _ => s
  | Op.sleepFor h n =>
    match sleep_for s h n with
    | Except.ok s1 => s1
    | Except.error _ => s
  | Op.yieldNow => yield_now s
  | Op.tick => advance s

/-- Apply a sequence of calls. -/
def run (s : Core) : List Op → Core
  | [] => s
  | op :: ops => run (step s op) ops

/-- Modelled from the spec: the boot state — empty registry and queues,
tick 0, the Idle task running, an arena of `a` free bytes (spec section 9). -/
def init (a : Nat) : Core :=
  { tick := 0, regs := [], rq := [], wheel := [], running := none
    nextH := 0, arena := a }

/-- How many structures among {Ready Queue, Timer Wheel, Running slot}
hold handle `h` (counting multiplicity inside each structure). -/
def locCount (s : Core) (h : Nat) : Nat :=
  (s.rq.map Prod.snd).count h + (s.wheel.map Prod.fst).count h +
    (if s.running = some h then 1 else 0)

/-- The number of registered, non-Terminated tasks. -/
def liveCount (s : Core) : Nat :=
  s.regs.countP (fun e => !(e.2.state == TaskState.Terminated))

/-- The structural invariant of the core (spec sections 3, 8): registry
keys are distinct and below the next fresh handle; every Ready Queue entry
points at a registered Ready task of that priority, with no handle queued
twice; every Timer Wheel entry points at a registered Sleeping task with
that wake tick, with no handle in the wheel twice, the wheel ascending by
wake tick; the running slot holds a registered Running task; and each
registered task's state points back into the structure that holds it
(no task is Blocked, since no modelled call produces that state). -/
structure Inv (s : Core) : Prop where
  keysNodup : (s.regs.map Prod.fst).Nodup
  freshH : ∀ k ∈ s.regs.map Prod.fst, k < s.nextH
  rqOK : ∀ pe ∈ s.rq,
    stateOf s.regs pe.2 = some TaskState.Ready ∧ prioOf s.regs pe.2 = pe.1
  rqNodup : (s.rq.map Prod.snd).Nodup
  twOK : ∀ we ∈ s.wheel,
    stateOf s.regs we.1 = some TaskState.Sleeping ∧ wakeOf s.regs we.1 = we.2
  twNodup : (s.wheel.map Prod.fst).Nodup
  twSorted : s.wheel.Pairwise (fun a b => a.2 ≤ b.2)
  runOK : ∀ r ∈ s.running.toList, stateOf s.regs r = some TaskState.Running
  stLoc : ∀ e ∈ s.regs,
    (e.2.state = TaskState.Ready → e.1 ∈ s.rq.map Prod.snd) ∧
    (e.2.state = TaskState.Sleeping → e.1 ∈ s.wheel.map Prod.fst) ∧
    (e.2.state = TaskState.Running → s.running = some e.1) ∧
    e.2.state ≠ TaskState.Blocked

/-- Configuration for the equal-priority fairness argument: task `A` of
priority `p` is queued ahead of task `B` of the same priority (or has
already taken the running slot), and no task anywhere has priority above
`p`, so `B` cannot start before `A` has run. -/
def RunsBeforeCfg (s : Core) (A B p : Nat) : Prop :=
  Inv s ∧ A ≠ B ∧ prioOf s.regs A = p ∧
  (∀ e ∈ s.rq, e.1 ≤ p) ∧ (∀ e ∈ s.wheel, prioOf s.regs e.1 ≤ p) ∧
  (([(p, A), (p, B)].Sublist s.rq ∧
      (∀ r ∈ s.running.toList, prioOf s.regs r ≤ p) ∧ s.running ≠ some B) ∨
    s.running = some A)

/-- A task parked in the Timer Wheel: handle `h` is registered Sleeping,
its single wheel entry carries wake tick `wake`, and it is neither queued
nor running.  This holds from `sleep_for` until the wake tick is reached. -/
def SleepPending (s : Core) (h wake : Nat) : Prop :=
  stateOf s.regs h = some TaskState.Sleeping ∧
  (h, wake) ∈ s.wheel ∧
  (s.wheel.map Prod.fst).count h = 1 ∧
  h ∉ s.rq.map Prod.snd ∧
  s.running ≠ some h

/-! ### Registry lemmas -/

theorem lookup_nil (h : Nat) : lookup [] h = none := rfl

theorem lookup_cons (k : Nat) (t : TCB) (regs : List (Nat × TCB)) (h : Nat) :
    lookup ((k, t) :: regs) h = if k = h then some t else lookup regs h := by
  by_cases hk : k = h <;> simp [lookup, List.find?_cons, hk]

theorem updReg_cons (k : Nat) (t : TCB) (tl : List (Nat × TCB)) (h : Nat)
    (f : TCB → TCB) :
    updReg ((k, t) :: tl) h f =
      (if k = h then (k, f t) else (k, t)) :: updReg tl h f := by
  by_cases hk : k = h <;> simp [updReg, hk]

theorem lookup_updReg_self (regs : List (Nat × TCB)) (h : Nat) (f : TCB → TCB) :
    lookup (updReg regs h f) h = (lookup regs h).map f := by
  induction regs with
  | nil => rfl
  | cons e tl ih =>
    obtain ⟨k, t⟩ := e
    rw [updReg_cons]
    by_cases hk : k = h
    · rw [if_pos hk, lookup_cons, if_pos hk, lookup_cons, if_pos hk]
      rfl
    · rw [if_neg hk, lookup_cons, if_neg hk, lookup_cons, if_neg hk]
      exact ih

theorem lookup_updReg_ne (regs : List (Nat × TCB)) (h h2 : Nat) (f : TCB → TCB)
    (hne : h2 ≠ h) : lookup (updReg regs h f) h2 = lookup regs h2 := by
  induction regs with
  | nil => rfl
  | cons e tl ih =>
    obtain ⟨k, t⟩ := e
    rw [updReg_cons]
    by_cases hk2 : k = h2
    · have hk : k ≠ h := fun hh => hne (hk2 ▸ hh)
      rw [if_neg hk, lookup_cons, if_pos hk2, lookup_cons, if_pos hk2]
    · have hhead :
        lookup ((if k = h then (k, f t) else (k, t)) :: updReg tl h f) h2 =
          lookup (updReg tl h f) h2 := by
        split <;> rw [lookup_cons, if_neg hk2]
      rw [hhead, lookup_cons, if_neg hk2]
      exact ih

theorem keys_updReg (regs : List (Nat × TCB)) (h : Nat) (f : TCB → TCB) :
    (updReg regs h f).map Prod.fst = regs.map Prod.fst := by
  induction regs with
  | nil => rfl
  | cons e tl ih =>
    obtain ⟨k, t⟩ := e
    rw [updReg_cons]
    split <;> simp [ih]

theorem lookup_mem {regs : List (Nat × TCB)} {h : Nat} {t : TCB}
    (hl : lookup regs h = some t) : (h, t) ∈ regs := by
  unfold lookup at hl
  cases hf : regs.find? (fun e => e.1 == h) with
  | none => rw [hf] at hl; simp at hl
  | some e =>
    rw [hf] at hl
    simp only [Option.map_some'] at hl
    have hmem := List.mem_of_find?_eq_some hf
    have hpred := List.find?_some hf
    simp only [beq_iff_eq] at hpred
    have : e = (h, t) := by
      obtain ⟨e1, e2⟩ := e
      simp_all
    rwa [this] at hmem

theorem mem_lookup_of_nodup {regs : List (Nat × TCB)} {h : Nat} {t : TCB}
    (hn : (regs.map Prod.fst).Nodup) (hm : (h, t) ∈ regs) :
    lookup regs h = some t := by
  induction regs with
  | nil => simp at hm
  | cons e tl ih =>
    obtain ⟨k, u⟩ := e
    simp only [List.map_cons, List.nodup_cons] at hn
    rcases List.mem_cons.mp hm with hh | hh
    · rw [lookup_cons]
      have : k = h := congrArg Prod.fst hh.symm
      rw [if_pos this]
      exact congrArg (some ∘ Prod.snd) hh.symm
    · rw [lookup_cons]
      have hkh : k ≠ h := by
        intro he
        subst he
        exact hn.1 (List.mem_map.mpr ⟨(k, t), hh, rfl⟩)
      rw [if_neg hkh]
      exact ih hn.2 hh

theorem lookup_eq_none_iff (regs : List (Nat × TCB)) (h : Nat) :
    lookup regs h = none ↔ h ∉ regs.map Prod.fst := by
  unfold lookup
  rw [Option.map_eq_none', List.find?_eq_none]
  constructor
  · intro hall hmem
    obtain ⟨e, he, hfst⟩ := List.mem_map.mp hmem
    exact hall e he (by simpa using hfst)
  · intro hnm x hx hbeq
    exact hnm (List.mem_map.mpr ⟨x, hx, by simpa using hbeq⟩)

theorem lookup_isSome_iff (regs : List (Nat × TCB)) (h : Nat) :
    (lookup regs h).isSome ↔ h ∈ regs.map Prod.fst := by
  rw [Option.isSome_iff_ne_none, ne_eq, lookup_eq_none_iff, not_not]

theorem prioOf_updReg (regs : List (Nat × TCB)) (h h2 : Nat) (f : TCB → TCB)
    (hf : ∀ t, (f t).priority = t.priority) :
    prioOf (updReg regs h f) h2 = prioOf regs h2 := by
  by_cases hh : h2 = h
  · subst hh
    unfold prioOf
    rw [lookup_updReg_self]
    cases lookup regs h2 <;> simp [hf]
  · unfold prioOf
    rw [lookup_updReg_ne _ _ _ _ hh]

theorem stateOf_updReg_ne (regs : List (Nat × TCB)) (h h2 : Nat) (f : TCB → TCB)
    (hne : h2 ≠ h) : stateOf (updReg regs h f) h2 = stateOf regs h2 := by
  unfold stateOf
  rw [lookup_updReg_ne _ _ _ _ hne]

/-! ### Timer Wheel lemmas -/

theorem twInsert_perm (e : Nat × Nat) (w : List (Nat × Nat)) :
    (twInsert e w).Perm (e :: w) := by
  induction w with
  | nil => exact List.Perm.refl _
  | cons x xs ih =>
    unfold twInsert
    split
    · exact (List.Perm.cons x ih).trans (List.Perm.swap e x xs)
    · exact List.Perm.refl _

theorem mem_twInsert (a e : Nat × Nat) (w : List (Nat × Nat)) :
    a ∈ twInsert e w ↔ a = e ∨ a ∈ w := by
  rw [(twInsert_perm e w).mem_iff, List.mem_cons]

theorem twInsert_sorted (e : Nat × Nat) (w : List (Nat × Nat))
    (hs : w.Pairwise (fun a b => a.2 ≤ b.2)) :
    (twInsert e w).Pairwise (fun a b => a.2 ≤ b.2) := by
  induction w with
  | nil => simp [twInsert]
  | cons x xs ih =>
    rw [List.pairwise_cons] at hs
    unfold twInsert
    split
    · rw [List.pairwise_cons]
      refine ⟨?_, ih hs.2⟩
      intro b hb
      rcases (mem_twInsert b e xs).mp hb with hbe | hbx
      · subst hbe
        assumption
      · exact hs.1 b hbx
    · rw [List.pairwise_cons]
      refine ⟨?_, List.pairwise_cons.mpr hs⟩
      intro b hb
      have hxe : e.2 ≤ x.2 := le_of_not_le (by assumption)
      rcases List.mem_cons.mp hb with hbx | hbxs
      · subst hbx
        exact hxe
      · exact le_trans hxe (hs.1 b hbxs)

theorem twInsert_split (e : Nat × Nat) (w : List (Nat × Nat)) :
    twInsert e w =
      w.takeWhile (fun x => decide (x.2 ≤ e.2)) ++
        e :: w.dropWhile (fun x => decide (x.2 ≤ e.2)) := by
  induction w with
  | nil => rfl
  | cons x xs ih =>
    unfold twInsert
    by_cases hx : x.2 ≤ e.2
    · rw [if_pos hx, List.takeWhile_cons, List.dropWhile_cons]
      simp only [hx, decide_True]
      rw [ih]
      rfl
    · rw [if_neg hx, List.takeWhile_cons, List.dropWhile_cons]
      simp only [hx, decide_False]
      rfl

theorem sorted_takeWhile_eq_filter (t : Nat) (w : List (Nat × Nat))
    (hs : w.Pairwise (fun a b => a.2 ≤ b.2)) :
    w.takeWhile (fun e => decide (e.2 ≤ t)) =
      w.filter (fun e => decide (e.2 ≤ t)) := by
  induction w with
  | nil => rfl
  | cons x xs ih =>
    rw [List.pairwise_cons] at hs
    by_cases hx : x.2 ≤ t
    · rw [List.takeWhile_cons, List.filter_cons]
      simp only [hx, decide_True, if_true]
      rw [ih hs.2]
    · rw [List.takeWhile_cons, List.filter_cons]
      simp only [hx, decide_False, if_false]
      have : xs.filter (fun e => decide (e.2 ≤ t)) = [] := by
        rw [List.filter_eq_nil_iff]
        intro a ha
        have : x.2 ≤ a.2 := hs.1 a ha
        simp only [decide_eq_true_eq]
        omega
      rw [this]
      simp

theorem sorted_dropWhile_eq_filter (t : Nat) (w : List (Nat × Nat))
    (hs : w.Pairwise (fun a b => a.2 ≤ b.2)) :
    w.dropWhile (fun e => decide (e.2 ≤ t)) =
      w.filter (fun e => decide (t < e.2)) := by
  induction w with
  | nil => rfl
  | cons x xs ih =>
    rw [List.pairwise_cons] at hs
    by_cases hx : x.2 ≤ t
    · rw [List.dropWhile_cons, List.filter_cons]
      have hnx : ¬ t < x.2 := by omega
      simp only [hx, decide_True, if_true, hnx, decide_False, if_false]
      exact ih hs.2
    · rw [List.dropWhile_cons, List.filter_cons]
      have htx : t < x.2 := by omega
      simp only [hx, decide_False, if_false, htx, decide_True, if_true]
      have : xs.filter (fun e => decide (t < e.2)) = xs := by
        rw [List.filter_eq_self]
        intro a ha
        have : x.2 ≤ a.2 := hs.1 a ha
        simp only [decide_eq_true_eq]
        omega
      rw [this]
      simp

/-! ### Ready Queue lemmas -/

theorem le_maxPrio (rq : List (Nat × Nat)) (e : Nat × Nat) (he : e ∈ rq) :
    e.1 ≤ maxPrio rq := by
  induction rq with
  | nil => simp at he
  | cons x xs ih =>
    rcases List.mem_cons.mp he with hx | hx
    · subst hx
      exact le_max_left _ _
    · exact le_trans (ih hx) (le_max_right _ _)

theorem maxPrio_exists (rq : List (Nat × Nat)) (hne : rq ≠ []) :
    ∃ e ∈ rq, e.1 = maxPrio rq := by
  induction rq with
  | nil => exact absurd rfl hne
  | cons x xs ih =>
    by_cases hxs : xs = []
    · subst hxs
      exact ⟨x, List.mem_cons_self x [], by simp [maxPrio]⟩
    · obtain ⟨e, he, hmax⟩ := ih hxs
      by_cases hcmp : x.1 ≤ maxPrio xs
      · refine ⟨e, List.mem_cons_of_mem x he, ?_⟩
        show e.1 = maxPrio (x :: xs)
        unfold maxPrio
        simp only [List.foldr_cons]
        have : maxPrio xs = xs.foldr (fun e m => max e.1 m) 0 := rfl
        omega
      · refine ⟨x, List.mem_cons_self x xs, ?_⟩
        show x.1 = maxPrio (x :: xs)
        unfold maxPrio
        simp only [List.foldr_cons]
        have : maxPrio xs = xs.foldr (fun e m => max e.1 m) 0 := rfl
        omega

theorem findHighest_eq_none_iff (rq : List (Nat × Nat)) :
    findHighest rq = none ↔ rq = [] := by
  constructor
  · intro hn
    by_contra hne
    obtain ⟨e, he, hmax⟩ := maxPrio_exists rq hne
    rw [findHighest, List.find?_eq_none] at hn
    exact hn e he (by simpa using hmax)
  · intro hh
    subst hh
    rfl

theorem findHighest_mem {rq : List (Nat × Nat)} {e : Nat × Nat}
    (hf : findHighest rq = some e) : e ∈ rq :=
  List.mem_of_find?_eq_some hf

theorem findHighest_prio {rq : List (Nat × Nat)} {e : Nat × Nat}
    (hf : findHighest rq = some e) : e.1 = maxPrio rq := by
  have := List.find?_some hf
  simpa using this

theorem findHighest_top {rq : List (Nat × Nat)} {e : Nat × Nat}
    (hf : findHighest rq = some e) : ∀ x ∈ rq, x.1 ≤ e.1 := by
  intro x hx
  rw [findHighest_prio hf]
  exact le_maxPrio rq x hx

/-! ### Timer Wheel expiry lemmas -/

theorem expire_eq_of_nil (t : Nat) (s : Core) (hw : s.wheel = []) :
    expire t s = s := by
  unfold expire
  rw [hw]
  rfl

theorem expire_eq_of_stop (t : Nat) (s : Core) (e : Nat × Nat)
    (rest : List (Nat × Nat)) (hw : s.wheel = e :: rest) (hnot : ¬ e.2 ≤ t) :
    expire t s = s := by
  unfold expire
  rw [hw]
  unfold expireGo
  rw [if_neg hnot]

theorem expire_eq_of_go (t : Nat) (s : Core) (e : Nat × Nat)
    (rest : List (Nat × Nat)) (hw : s.wheel = e :: rest) (hle : e.2 ≤ t) :
    expire t s = expire t (releaseOne { s with wheel := rest } e.1) := by
  unfold expire
  rw [hw]
  rw [show (releaseOne { s with wheel := rest } e.1).wheel = rest from rfl]
  show (if e.2 ≤ t then
    expireGo t rest (releaseOne { s with wheel := rest } e.1) else s) = _
  rw [if_pos hle]

theorem expire_main (t : Nat) : ∀ (n : Nat) (s : Core), s.wheel.length ≤ n →
    (expire t s).tick = s.tick ∧
    (expire t s).running = s.running ∧
    (expire t s).nextH = s.nextH ∧
    (expire t s).arena = s.arena ∧
    (expire t s).regs.map Prod.fst = s.regs.map Prod.fst ∧
    (∀ h2, prioOf (expire t s).regs h2 = prioOf s.regs h2) ∧
    (expire t s).wheel = s.wheel.dropWhile (fun e => decide (e.2 ≤ t)) ∧
    (expire t s).rq = s.rq ++
      (s.wheel.takeWhile (fun e => decide (e.2 ≤ t))).map
        (fun e => (prioOf s.regs e.1, e.1)) ∧
    (∀ h2, h2 ∉ (s.wheel.takeWhile (fun e => decide (e.2 ≤ t))).map Prod.fst →
      lookup (expire t s).regs h2 = lookup s.regs h2) := by
  intro n
  induction n with
  | zero =>
    intro s hlen
    have hw : s.wheel = [] := List.eq_nil_of_length_eq_zero (Nat.le_zero.mp hlen)
    rw [expire_eq_of_nil t s hw, hw]
    simp
  | succ n ih =>
    intro s hlen
    cases hw : s.wheel with
    | nil =>
      rw [expire_eq_of_nil t s hw, hw]
      simp
    | cons e rest =>
      by_cases hle : e.2 ≤ t
      · rw [expire_eq_of_go t s e rest hw hle]
        set s1 : Core := releaseOne { s with wheel := rest } e.1 with hs1
        have hw1 : s1.wheel = rest := rfl
        have hlen1 : s1.wheel.length ≤ n := by
          rw [hw1]
          rw [hw] at hlen
          simpa using hlen
        obtain ⟨htick, hrun, hnext, haren, hkeys, hprio, hwheel, hrq, hlook⟩ :=
          ih s1 hlen1
        have hregs1 : s1.regs = updReg s.regs e.1
            (setTCBState TaskState.Ready) := rfl
        have hrq1 : s1.rq = s.rq ++ [(prioOf s.regs e.1, e.1)] := rfl
        have hprio1 : ∀ h2, prioOf s1.regs h2 = prioOf s.regs h2 := by
          intro h2
          rw [hregs1]
          exact prioOf_updReg _ _ _ _ (fun u => rfl)
        rw [hw1] at hwheel hrq hlook
        have htake : List.takeWhile (fun x => decide (x.2 ≤ t)) (e :: rest) =
            e :: List.takeWhile (fun x => decide (x.2 ≤ t)) rest := by
          rw [List.takeWhile_cons]
          simp [hle]
        have hdrop : List.dropWhile (fun x => decide (x.2 ≤ t)) (e :: rest) =
            List.dropWhile (fun x => decide (x.2 ≤ t)) rest := by
          rw [List.dropWhile_cons]
          simp [hle]
        have hmapc : List.map (fun x => (prioOf s1.regs x.1, x.1))
            (List.takeWhile (fun x => decide (x.2 ≤ t)) rest) =
            List.map (fun x => (prioOf s.regs x.1, x.1))
            (List.takeWhile (fun x => decide (x.2 ≤ t)) rest) :=
          List.map_congr_left (fun x _ => by rw [hprio1])
        refine ⟨htick, hrun, hnext, haren, ?_, ?_, ?_, ?_, ?_⟩
        · rw [hkeys, hregs1, keys_updReg]
        · intro h2
          rw [hprio h2, hprio1 h2]
        · rw [hwheel, hdrop]
        · rw [hrq, hrq1, htake, hmapc]
          simp [List.append_assoc]
        · intro h2 hh2
          rw [htake] at hh2
          simp only [List.map_cons, List.mem_cons, not_or] at hh2
          rw [hlook h2 hh2.2, hregs1, lookup_updReg_ne _ _ _ _ hh2.1]
      · rw [expire_eq_of_stop t s e rest hw hle, hw]
        have htake : ((e :: rest).takeWhile (fun x => decide (x.2 ≤ t))) = [] := by
          rw [List.takeWhile_cons]
          simp [hle]
        have hdrop : ((e :: rest).dropWhile (fun x => decide (x.2 ≤ t))) =
            e :: rest := by
          rw [List.dropWhile_cons]
          simp [hle]
        rw [htake, hdrop]
        simp [← hw]

theorem mem_updReg {regs : List (Nat × TCB)} {h : Nat} {f : TCB → TCB}
    {e2 : Nat × TCB} (hm : e2 ∈ updReg regs h f) :
    ∃ orig ∈ regs,
      (orig.1 ≠ h ∧ e2 = orig) ∨ (orig.1 = h ∧ e2 = (orig.1, f orig.2)) := by
  obtain ⟨orig, ho, heq⟩ := List.mem_map.mp hm
  by_cases hoh : orig.1 = h
  · exact ⟨orig, ho, Or.inr ⟨hoh, by rw [← heq]; simp [hoh]⟩⟩
  · exact ⟨orig, ho, Or.inl ⟨hoh, by rw [← heq]; simp [hoh]⟩⟩

theorem wakeOf_updReg_ne (regs : List (Nat × TCB)) (h h2 : Nat) (f : TCB → TCB)
    (hne : h2 ≠ h) : wakeOf (updReg regs h f) h2 = wakeOf regs h2 := by
  unfold wakeOf
  rw [lookup_updReg_ne _ _ _ _ hne]

theorem stateOf_updReg_state (regs : List (Nat × TCB)) (h : Nat)
    (st : TaskState) (f : TCB → TCB) (hs : (lookup regs h).isSome)
    (hf : ∀ u, (f u).state = st) :
    stateOf (updReg regs h f) h = some st := by
  unfold stateOf
  rw [lookup_updReg_self]
  obtain ⟨t, ht⟩ := Option.isSome_iff_exists.mp hs
  rw [ht]
  simp [hf]

theorem stateOf_isSome {regs : List (Nat × TCB)} {h : Nat} {st : TaskState}
    (hst : stateOf regs h = some st) : (lookup regs h).isSome := by
  unfold stateOf at hst
  cases hl : lookup regs h
  · rw [hl] at hst
    simp at hst
  · simp

theorem prioOf_setState (regs : List (Nat × TCB)) (h h2 : Nat)
    (st : TaskState) :
    prioOf (updReg regs h (setTCBState st)) h2 = prioOf regs h2 :=
  prioOf_updReg regs h h2 (setTCBState st) (fun u => rfl)

theorem prioOf_setSleep (regs : List (Nat × TCB)) (h h2 : Nat) (w : Nat) :
    prioOf (updReg regs h (setTCBSleep w)) h2 = prioOf regs h2 :=
  prioOf_updReg regs h h2 (setTCBSleep w) (fun u => rfl)

theorem releaseOne_inv (s : Core) (e : Nat × Nat) (rest : List (Nat × Nat))
    (hInv : Inv s) (hw : s.wheel = e :: rest) :
    Inv (releaseOne { s with wheel := rest } e.1) := by
  have hsl : stateOf s.regs e.1 = some TaskState.Sleeping :=
    (hInv.twOK e (by rw [hw]; exact List.mem_cons_self e rest)).1
  have hlsome : (lookup s.regs e.1).isSome := stateOf_isSome hsl
  have hrqne : ∀ pe ∈ s.rq, pe.2 ≠ e.1 := by
    intro pe hpe hcontra
    have := (hInv.rqOK pe hpe).1
    rw [hcontra, hsl] at this
    simp at this
  have hrunne : s.running ≠ some e.1 := by
    intro hr
    have := hInv.runOK e.1 (by rw [hr]; simp)
    rw [hsl] at this
    simp at this
  have hrestne : ∀ we ∈ rest, we.1 ≠ e.1 := by
    intro we hwe hcontra
    have hn := hInv.twNodup
    rw [hw, List.map_cons, List.nodup_cons] at hn
    exact hn.1 (hcontra ▸ List.mem_map.mpr ⟨we, hwe, rfl⟩)
  refine Inv.mk ?_ ?_ ?_ ?_ ?_ ?_ ?_ ?_ ?_
  · show ((updReg s.regs e.1
      (setTCBState TaskState.Ready)).map Prod.fst).Nodup
    rw [keys_updReg]
    exact hInv.keysNodup
  · show ∀ k ∈ (updReg s.regs e.1
      (setTCBState TaskState.Ready)).map Prod.fst, k < s.nextH
    rw [keys_updReg]
    exact hInv.freshH
  · show ∀ pe ∈ rqEnqueue s.rq (prioOf s.regs e.1) e.1,
      stateOf (updReg s.regs e.1
        (setTCBState TaskState.Ready)) pe.2 =
          some TaskState.Ready ∧
      prioOf (updReg s.regs e.1
        (setTCBState TaskState.Ready)) pe.2 = pe.1
    intro pe hpe
    rcases List.mem_append.mp hpe with hold | hnew
    · have hne := hrqne pe hold
      constructor
      · rw [stateOf_updReg_ne _ _ _ _ hne]
        exact (hInv.rqOK pe hold).1
      · rw [prioOf_setState]
        exact (hInv.rqOK pe hold).2
    · have : pe = (prioOf s.regs e.1, e.1) := by simpa using hnew
      subst this
      constructor
      · exact stateOf_updReg_state _ _ _ _ hlsome (fun u => rfl)
      · rw [prioOf_setState]
  · show ((rqEnqueue s.rq (prioOf s.regs e.1) e.1).map Prod.snd).Nodup
    unfold rqEnqueue
    rw [List.map_append]
    simp only [List.map_cons, List.map_nil]
    rw [List.nodup_append]
    refine ⟨hInv.rqNodup, List.nodup_singleton _, ?_⟩
    intro x hx
    simp only [List.mem_singleton]
    obtain ⟨pe, hpe, hpe2⟩ := List.mem_map.mp hx
    intro hcontra
    exact hrqne pe hpe (by rw [hpe2, hcontra])
  · show ∀ we ∈ rest,
      stateOf (updReg s.regs e.1
        (setTCBState TaskState.Ready)) we.1 =
          some TaskState.Sleeping ∧
      wakeOf (updReg s.regs e.1
        (setTCBState TaskState.Ready)) we.1 = we.2
    intro we hwe
    have hne := hrestne we hwe
    have hmem : we ∈ s.wheel := by rw [hw]; exact List.mem_cons_of_mem e hwe
    constructor
    · rw [stateOf_updReg_ne _ _ _ _ hne]
      exact (hInv.twOK we hmem).1
    · rw [wakeOf_updReg_ne _ _ _ _ hne]
      exact (hInv.twOK we hmem).2
  · show (rest.map Prod.fst).Nodup
    have hn := hInv.twNodup
    rw [hw, List.map_cons, List.nodup_cons] at hn
    exact hn.2
  · show rest.Pairwise (fun a b => a.2 ≤ b.2)
    have hs := hInv.twSorted
    rw [hw, List.pairwise_cons] at hs
    exact hs.2
  · show ∀ r ∈ s.running.toList,
      stateOf (updReg s.regs e.1
        (setTCBState TaskState.Ready)) r =
          some TaskState.Running
    intro r hr
    simp only [Option.mem_toList, Option.mem_def] at hr
    have hrs : s.running = some r := hr
    have hrne : r ≠ e.1 := fun hcontra => hrunne (hcontra ▸ hrs)
    rw [stateOf_updReg_ne _ _ _ _ hrne]
    exact hInv.runOK r (by simp [hrs])
  · show ∀ e2 ∈ updReg s.regs e.1
      (setTCBState TaskState.Ready),
      (e2.2.state = TaskState.Ready →
        e2.1 ∈ (rqEnqueue s.rq (prioOf s.regs e.1) e.1).map Prod.snd) ∧
      (e2.2.state = TaskState.Sleeping → e2.1 ∈ rest.map Prod.fst) ∧
      (e2.2.state = TaskState.Running → s.running = some e2.1) ∧
      e2.2.state ≠ TaskState.Blocked
    intro e2 he2
    obtain ⟨orig, horig, hcase⟩ := mem_updReg he2
    rcases hcase with ⟨hne, heq⟩ | ⟨heqh, heq⟩
    · rw [heq]
      have hold := hInv.stLoc orig horig
      refine ⟨?_, ?_, ?_, hold.2.2.2⟩
      · intro hready
        have := hold.1 hready
        unfold rqEnqueue
        rw [List.map_append, List.mem_append]
        exact Or.inl this
      · intro hsleep
        have := hold.2.1 hsleep
        rw [hw, List.map_cons, List.mem_cons] at this
        rcases this with hc | hc
        · exact absurd hc hne
        · exact hc
      · intro hrunning
        exact hold.2.2.1 hrunning
    · rw [heq]
      refine ⟨?_, ?_, ?_, ?_⟩
      · intro _
        unfold rqEnqueue
        rw [List.map_append, List.mem_append]
        right
        simp [heqh]
      · intro hsleep
        simp [setTCBState] at hsleep
      · intro hrunning
        simp [setTCBState] at hrunning
      · simp [setTCBState]

theorem expire_inv (t : Nat) : ∀ (n : Nat) (s : Core), s.wheel.length ≤ n →
    Inv s → Inv (expire t s) := by
  intro n
  induction n with
  | zero =>
    intro s hlen hInv
    have hwn : s.wheel = [] := List.eq_nil_of_length_eq_zero (Nat.le_zero.mp hlen)
    rw [expire_eq_of_nil t s hwn]
    exact hInv
  | succ n ih =>
    intro s hlen hInv
    cases hw : s.wheel with
    | nil =>
      rw [expire_eq_of_nil t s hw]
      exact hInv
    | cons e rest =>
      by_cases hle : e.2 ≤ t
      · rw [expire_eq_of_go t s e rest hw hle]
        refine ih _ ?_ (releaseOne_inv s e rest hInv hw)
        show rest.length ≤ n
        rw [hw] at hlen
        simpa using hlen
      · rw [expire_eq_of_stop t s e rest hw hle]
        exact hInv

theorem expire_ready_absorb (t : Nat) : ∀ (n : Nat) (s : Core),
    s.wheel.length ≤ n → ∀ h, stateOf s.regs h = some TaskState.Ready →
    stateOf (expire t s).regs h = some TaskState.Ready := by
  intro n
  induction n with
  | zero =>
    intro s hlen h hst
    have hwn : s.wheel = [] := List.eq_nil_of_length_eq_zero (Nat.le_zero.mp hlen)
    rw [expire_eq_of_nil t s hwn]
    exact hst
  | succ n ih =>
    intro s hlen h hst
    cases hw : s.wheel with
    | nil =>
      rw [expire_eq_of_nil t s hw]
      exact hst
    | cons e rest =>
      by_cases hle : e.2 ≤ t
      · rw [expire_eq_of_go t s e rest hw hle]
        refine ih _ ?_ h ?_
        · show rest.length ≤ n
          rw [hw] at hlen
          simpa using hlen
        · show stateOf (updReg s.regs e.1 _) h = some TaskState.Ready
          by_cases hhe : h = e.1
          · subst hhe
            exact stateOf_updReg_state _ _ _ _ (stateOf_isSome hst) (fun u => rfl)
          · rw [stateOf_updReg_ne _ _ _ _ hhe]
            exact hst
      · rw [expire_eq_of_stop t s e rest hw hle]
        exact hst

theorem expire_released_ready (t : Nat) : ∀ (n : Nat) (s : Core),
    s.wheel.length ≤ n →
    ∀ h ∈ (s.wheel.takeWhile (fun x => decide (x.2 ≤ t))).map Prod.fst,
    (lookup s.regs h).isSome →
    stateOf (expire t s).regs h = some TaskState.Ready := by
  intro n
  induction n with
  | zero =>
    intro s hlen h hmem _
    have hwn : s.wheel = [] := List.eq_nil_of_length_eq_zero (Nat.le_zero.mp hlen)
    rw [hwn] at hmem
    simp at hmem
  | succ n ih =>
    intro s hlen h hmem hsome
    cases hw : s.wheel with
    | nil =>
      rw [hw] at hmem
      simp at hmem
    | cons e rest =>
      rw [hw] at hmem
      by_cases hle : e.2 ≤ t
      · rw [expire_eq_of_go t s e rest hw hle]
        set s1 : Core := releaseOne { s with wheel := rest } e.1 with hs1
        have hw1 : s1.wheel = rest := rfl
        have hlen1 : s1.wheel.length ≤ n := by
          rw [hw1]
          rw [hw] at hlen
          simpa using hlen
        rw [List.takeWhile_cons] at hmem
        simp only [hle, decide_True, if_true, List.map_cons, List.mem_cons]
          at hmem
        by_cases hhe : h = e.1
        · rw [hhe] at hsome ⊢
          refine expire_ready_absorb t s1.wheel.length s1 le_rfl e.1 ?_
          exact stateOf_updReg_state s.regs e.1 TaskState.Ready
            (setTCBState TaskState.Ready) hsome (fun u => rfl)
        · rcases hmem with hc | hc
          · exact absurd hc hhe
          · refine ih s1 hlen1 h ?_ ?_
            · rw [hw1]
              exact hc
            · show (lookup (updReg s.regs e.1
                (setTCBState TaskState.Ready)) h).isSome
              rw [lookup_updReg_ne _ _ _ _ hhe]
              exact hsome
      · rw [List.takeWhile_cons] at hmem
        simp [hle] at hmem

/-! ### Scheduler lemmas -/

theorem schedule_eq_empty (s : Core) (hfh : findHighest s.rq = none) :
    schedule s = s := by
  unfold schedule
  rw [hfh]

theorem schedule_eq_idle (s : Core) (e : Nat × Nat)
    (hfh : findHighest s.rq = some e) (hrun : s.running = none) :
    schedule s =
      { s with
        rq := s.rq.erase e
        regs := updReg s.regs e.2 (setTCBState TaskState.Running)
        running := some e.2 } := by
  unfold schedule
  rw [hfh, hrun]

theorem schedule_eq_preempt (s : Core) (e : Nat × Nat) (r : Nat)
    (hfh : findHighest s.rq = some e) (hrun : s.running = some r)
    (hlt : prioOf s.regs r < e.1) :
    schedule s =
      { s with
        rq := rqEnqueue (s.rq.erase e) (prioOf s.regs r) r
        regs := updReg
          (updReg s.regs e.2 (setTCBState TaskState.Running))
          r (setTCBState TaskState.Ready)
        running := some e.2 } := by
  unfold schedule
  rw [hfh, hrun]
  simp [hlt]

theorem schedule_eq_keep (s : Core) (e : Nat × Nat) (r : Nat)
    (hfh : findHighest s.rq = some e) (hrun : s.running = some r)
    (hnlt : ¬ prioOf s.regs r < e.1) :
    schedule s = s := by
  unfold schedule
  rw [hfh, hrun]
  simp [hnlt]

theorem erase_snd_ne {rq : List (Nat × Nat)} {e : Nat × Nat}
    (hn : (rq.map Prod.snd).Nodup) (he : e ∈ rq) :
    ∀ pe ∈ rq.erase e, pe.2 ≠ e.2 := by
  intro pe hpe hcontra
  obtain ⟨l1, l2, hnotmem, hsplit, herase⟩ := List.exists_erase_eq he
  rw [herase] at hpe
  rw [hsplit] at hn
  rw [List.map_append, List.map_cons] at hn
  have hdisj := List.disjoint_of_nodup_append hn
  have hn1 := (List.nodup_append.mp hn).1
  have hn2 := (List.nodup_append.mp hn).2.1
  rcases List.mem_append.mp hpe with hc | hc
  · have : e.2 ∈ l1.map Prod.snd := hcontra ▸ List.mem_map.mpr ⟨pe, hc, rfl⟩
    exact hdisj this (List.mem_cons_self _ _)
  · rw [List.nodup_cons] at hn2
    exact hn2.1 (hcontra ▸ List.mem_map.mpr ⟨pe, hc, rfl⟩)

theorem ne_of_stateOf_ne {regs : List (Nat × TCB)} {a b : Nat}
    {st1 st2 : TaskState} (ha : stateOf regs a = some st1)
    (hb : stateOf regs b = some st2) (hne : st1 ≠ st2) : a ≠ b := by
  intro hab
  rw [hab, hb] at ha
  exact hne (Option.some.inj ha).symm

theorem schedule_inv (s : Core) (hInv : Inv s) : Inv (schedule s) := by
  cases hfh : findHighest s.rq with
  | none =>
    rw [schedule_eq_empty s hfh]
    exact hInv
  | some e =>
    have heMem : e ∈ s.rq := findHighest_mem hfh
    have heReady : stateOf s.regs e.2 = some TaskState.Ready :=
      (hInv.rqOK e heMem).1
    have heSome : (lookup s.regs e.2).isSome := stateOf_isSome heReady
    have hwne : ∀ we ∈ s.wheel, we.1 ≠ e.2 := fun we hwe =>
      ne_of_stateOf_ne (hInv.twOK we hwe).1 heReady (by simp)
    have herase_ne := erase_snd_ne hInv.rqNodup heMem
    have herase_sub : (s.rq.erase e).Sublist s.rq := List.erase_sublist e s.rq
    have herase_nodup : ((s.rq.erase e).map Prod.snd).Nodup :=
      (herase_sub.map Prod.snd).nodup hInv.rqNodup
    have hmem_of_erase : ∀ pe ∈ s.rq.erase e, pe ∈ s.rq := fun pe hpe =>
      List.mem_of_mem_erase hpe
    have hready_in_erase : ∀ a : Nat, a ≠ e.2 → a ∈ s.rq.map Prod.snd →
        a ∈ (s.rq.erase e).map Prod.snd := by
      intro a hane hmem
      obtain ⟨pe, hpe, hsnd⟩ := List.mem_map.mp hmem
      have hpene : pe ≠ e := fun hc => hane (by rw [← hsnd, hc])
      exact List.mem_map.mpr ⟨pe, (List.mem_erase_of_ne hpene).mpr hpe, hsnd⟩
    cases hrun : s.running with
    | none =>
      rw [schedule_eq_idle s e hfh hrun]
      refine Inv.mk ?_ ?_ ?_ ?_ ?_ ?_ ?_ ?_ ?_
      · show ((updReg s.regs e.2
            (setTCBState TaskState.Running)).map Prod.fst).Nodup
        rw [keys_updReg]
        exact hInv.keysNodup
      · show ∀ k ∈ (updReg s.regs e.2
            (setTCBState TaskState.Running)).map Prod.fst, k < s.nextH
        rw [keys_updReg]
        exact hInv.freshH
      · show ∀ pe ∈ s.rq.erase e,
          stateOf (updReg s.regs e.2 (setTCBState TaskState.Running)) pe.2 =
            some TaskState.Ready ∧
          prioOf (updReg s.regs e.2 (setTCBState TaskState.Running)) pe.2 =
            pe.1
        intro pe hpe
        refine ⟨?_, ?_⟩
        · rw [stateOf_updReg_ne _ _ _ _ (herase_ne pe hpe)]
          exact (hInv.rqOK pe (hmem_of_erase pe hpe)).1
        · rw [prioOf_setState]
          exact (hInv.rqOK pe (hmem_of_erase pe hpe)).2
      · show ((s.rq.erase e).map Prod.snd).Nodup
        exact herase_nodup
      · show ∀ we ∈ s.wheel,
          stateOf (updReg s.regs e.2 (setTCBState TaskState.Running)) we.1 =
            some TaskState.Sleeping ∧
          wakeOf (updReg s.regs e.2 (setTCBState TaskState.Running)) we.1 =
            we.2
        intro we hwe
        refine ⟨?_, ?_⟩
        · rw [stateOf_updReg_ne _ _ _ _ (hwne we hwe)]
          exact (hInv.twOK we hwe).1
        · rw [wakeOf_updReg_ne _ _ _ _ (hwne we hwe)]
          exact (hInv.twOK we hwe).2
      · exact hInv.twNodup
      · exact hInv.twSorted
      · show ∀ r2 ∈ (some e.2).toList,
          stateOf (updReg s.regs e.2 (setTCBState TaskState.Running)) r2 =
            some TaskState.Running
        intro r2 hr2
        simp only [Option.toList_some, List.mem_singleton] at hr2
        rw [hr2]
        exact stateOf_updReg_state s.regs e.2 TaskState.Running
          (setTCBState TaskState.Running) heSome (fun u => rfl)
      · show ∀ e2 ∈ updReg s.regs e.2 (setTCBState TaskState.Running),
          (e2.2.state = TaskState.Ready →
            e2.1 ∈ (s.rq.erase e).map Prod.snd) ∧
          (e2.2.state = TaskState.Sleeping → e2.1 ∈ s.wheel.map Prod.fst) ∧
          (e2.2.state = TaskState.Running → some e.2 = some e2.1) ∧
          e2.2.state ≠ TaskState.Blocked
        intro e2 he2
        obtain ⟨orig, horig, hcase⟩ := mem_updReg he2
        have hold := hInv.stLoc orig horig
        rcases hcase with ⟨hne, heq⟩ | ⟨heqh, heq⟩
        · rw [heq]
          refine ⟨?_, hold.2.1, ?_, hold.2.2.2⟩
          · intro hready
            exact hready_in_erase orig.1 hne (hold.1 hready)
          · intro hr2
            have hco := hold.2.2.1 hr2
            rw [hrun] at hco
            simp at hco
        · rw [heq]
          refine ⟨?_, ?_, ?_, ?_⟩
          · intro hready
            simp [setTCBState] at hready
          · intro hsleep
            simp [setTCBState] at hsleep
          · intro _
            simp [heqh]
          · simp [setTCBState]
    | some r =>
      have hrRun : stateOf s.regs r = some TaskState.Running :=
        hInv.runOK r (by simp [hrun])
      have hrSome : (lookup s.regs r).isSome := stateOf_isSome hrRun
      have hrne : r ≠ e.2 := ne_of_stateOf_ne hrRun heReady (by simp)
      have hrnotrq : ∀ pe ∈ s.rq, pe.2 ≠ r := fun pe hpe =>
        ne_of_stateOf_ne (hInv.rqOK pe hpe).1 hrRun (by simp)
      have hrnotwheel : ∀ we ∈ s.wheel, we.1 ≠ r := fun we hwe =>
        ne_of_stateOf_ne (hInv.twOK we hwe).1 hrRun (by simp)
      by_cases hlt : prioOf s.regs r < e.1
      · rw [schedule_eq_preempt s e r hfh hrun hlt]
        have hlook_r : lookup (updReg s.regs e.2
            (setTCBState TaskState.Running)) r = lookup s.regs r :=
          lookup_updReg_ne _ _ _ _ hrne
        refine Inv.mk ?_ ?_ ?_ ?_ ?_ ?_ ?_ ?_ ?_
        · show ((updReg (updReg s.regs e.2 (setTCBState TaskState.Running))
            r (setTCBState TaskState.Ready)).map Prod.fst).Nodup
          rw [keys_updReg, keys_updReg]
          exact hInv.keysNodup
        · show ∀ k ∈ (updReg (updReg s.regs e.2
            (setTCBState TaskState.Running))
            r (setTCBState TaskState.Ready)).map Prod.fst, k < s.nextH
          rw [keys_updReg, keys_updReg]
          exact hInv.freshH
        · show ∀ pe ∈ rqEnqueue (s.rq.erase e) (prioOf s.regs r) r,
            stateOf (updReg (updReg s.regs e.2
              (setTCBState TaskState.Running))
              r (setTCBState TaskState.Ready)) pe.2 =
              some TaskState.Ready ∧
            prioOf (updReg (updReg s.regs e.2
              (setTCBState TaskState.Running))
              r (setTCBState TaskState.Ready)) pe.2 = pe.1
          intro pe hpe
          rcases List.mem_append.mp hpe with hc | hc
          · have hne2 : pe.2 ≠ e.2 := herase_ne pe hc
            have hner : pe.2 ≠ r := hrnotrq pe (hmem_of_erase pe hc)
            refine ⟨?_, ?_⟩
            · rw [stateOf_updReg_ne _ _ _ _ hner,
                stateOf_updReg_ne _ _ _ _ hne2]
              exact (hInv.rqOK pe (hmem_of_erase pe hc)).1
            · rw [prioOf_setState, prioOf_setState]
              exact (hInv.rqOK pe (hmem_of_erase pe hc)).2
          · have : pe = (prioOf s.regs r, r) := by simpa using hc
            rw [this]
            refine ⟨?_, ?_⟩
            · exact stateOf_updReg_state _ _ _ _ (by rw [hlook_r]; exact hrSome)
                (fun u => rfl)
            · rw [prioOf_setState, prioOf_setState]
        · show ((rqEnqueue (s.rq.erase e) (prioOf s.regs r) r).map
            Prod.snd).Nodup
          unfold rqEnqueue
          rw [List.map_append]
          simp only [List.map_cons, List.map_nil]
          rw [List.nodup_append]
          refine ⟨herase_nodup, List.nodup_singleton _, ?_⟩
          intro x hx
          simp only [List.mem_singleton]
          obtain ⟨pe, hpe, hsnd⟩ := List.mem_map.mp hx
          intro hcontra
          exact hrnotrq pe (hmem_of_erase pe hpe) (by rw [hsnd, hcontra])
        · show ∀ we ∈ s.wheel,
            stateOf (updReg (updReg s.regs e.2
              (setTCBState TaskState.Running))
              r (setTCBState TaskState.Ready)) we.1 =
              some TaskState.Sleeping ∧
            wakeOf (updReg (updReg s.regs e.2
              (setTCBState TaskState.Running))
              r (setTCBState TaskState.Ready)) we.1 = we.2
          intro we hwe
          refine ⟨?_, ?_⟩
          · rw [stateOf_updReg_ne _ _ _ _ (hrnotwheel we hwe),
              stateOf_updReg_ne _ _ _ _ (hwne we hwe)]
            exact (hInv.twOK we hwe).1
          · rw [wakeOf_updReg_ne _ _ _ _ (hrnotwheel we hwe),
              wakeOf_updReg_ne _ _ _ _ (hwne we hwe)]
            exact (hInv.twOK we hwe).2
        · exact hInv.twNodup
        · exact hInv.twSorted
        · show ∀ r2 ∈ (some e.2).toList,
            stateOf (updReg (updReg s.regs e.2
              (setTCBState TaskState.Running))
              r (setTCBState TaskState.Ready)) r2 =
              some TaskState.Running
          intro r2 hr2
          simp only [Option.toList_some, List.mem_singleton] at hr2
          rw [hr2]
          rw [stateOf_updReg_ne _ _ _ _ (fun hc => hrne hc.symm)]
          exact stateOf_updReg_state s.regs e.2 TaskState.Running
            (setTCBState TaskState.Running) heSome (fun u => rfl)
        · show ∀ e2 ∈ updReg (updReg s.regs e.2
            (setTCBState TaskState.Running)) r (setTCBState TaskState.Ready),
            (e2.2.state = TaskState.Ready →
              e2.1 ∈ (rqEnqueue (s.rq.erase e) (prioOf s.regs r) r).map
                Prod.snd) ∧
            (e2.2.state = TaskState.Sleeping →
              e2.1 ∈ s.wheel.map Prod.fst) ∧
            (e2.2.state = TaskState.Running → some e.2 = some e2.1) ∧
            e2.2.state ≠ TaskState.Blocked
          intro e2 he2
          obtain ⟨mid, hmid, hcase1⟩ := mem_updReg he2
          obtain ⟨orig, horig, hcase0⟩ := mem_updReg hmid
          have hold := hInv.stLoc orig horig
          rcases hcase1 with ⟨hner, heqr⟩ | ⟨heqr1, heqr⟩
          · rcases hcase0 with ⟨hnee, heqe⟩ | ⟨heqe1, heqe⟩
            · -- untouched entry
              rw [heqr, heqe]
              refine ⟨?_, hold.2.1, ?_, hold.2.2.2⟩
              · intro hready
                unfold rqEnqueue
                rw [List.map_append, List.mem_append]
                exact Or.inl (hready_in_erase orig.1 hnee (hold.1 hready))
              · intro hr2
                have hco := hold.2.2.1 hr2
                rw [hrun] at hco
                have : r = orig.1 := Option.some.inj hco
                rw [heqe] at hner
                exact absurd this.symm hner
            · -- the newly Running task e.2
              rw [heqr, heqe]
              refine ⟨?_, ?_, ?_, ?_⟩
              · intro hready
                simp [setTCBState] at hready
              · intro hsleep
                simp [setTCBState] at hsleep
              · intro _
                simp [heqe1]
              · simp [setTCBState]
          · -- the demoted task r
            rw [heqr]
            refine ⟨?_, ?_, ?_, ?_⟩
            · intro _
              unfold rqEnqueue
              rw [List.map_append, List.mem_append]
              right
              rcases hcase0 with ⟨_, heqe⟩ | ⟨heqe1, heqe⟩
              · simp [heqr1]
              · have hre : r = e.2 := by
                  rw [← heqr1, heqe]
                  exact heqe1
                exact absurd hre hrne
            · intro hsleep
              simp [setTCBState] at hsleep
            · intro hrunning
              simp [setTCBState] at hrunning
            · simp [setTCBState]
      · rw [schedule_eq_keep s e r hfh hrun hlt]
        exact hInv

/-! ### Operation equations -/

theorem stateOf_cons (k : Nat) (t : TCB) (regs : List (Nat × TCB)) (h : Nat) :
    stateOf ((k, t) :: regs) h =
      if k = h then some t.state else stateOf regs h := by
  unfold stateOf
  rw [lookup_cons]
  split <;> rfl

theorem prioOf_cons (k : Nat) (t : TCB) (regs : List (Nat × TCB)) (h : Nat) :
    prioOf ((k, t) :: regs) h = if k = h then t.priority else prioOf regs h := by
  unfold prioOf
  rw [lookup_cons]
  by_cases hk : k = h
  · rw [if_pos hk, if_pos hk]
  · rw [if_neg hk, if_neg hk]

theorem wakeOf_cons (k : Nat) (t : TCB) (regs : List (Nat × TCB)) (h : Nat) :
    wakeOf ((k, t) :: regs) h = if k = h then t.wakeTick else wakeOf regs h := by
  unfold wakeOf
  rw [lookup_cons]
  by_cases hk : k = h
  · rw [if_pos hk, if_pos hk]
  · rw [if_neg hk, if_neg hk]

theorem spawn_ok (s : Core) (p k : Nat) (hk : k ≤ s.arena) :
    spawn s p k = Except.ok (s.nextH,
      { s with
        regs := (s.nextH, ⟨p, TaskState.Ready, 0, k⟩) :: s.regs
        rq := rqEnqueue s.rq p s.nextH
        nextH := s.nextH + 1
        arena := s.arena - k }) := by
  unfold spawn
  rw [if_pos hk]

theorem spawn_fail (s : Core) (p k : Nat) (hk : ¬ k ≤ s.arena) :
    spawn s p k = Except.error SchedError.OutOfMemory := by
  unfold spawn
  rw [if_neg hk]

theorem terminate_unknown (s : Core) (h : Nat) (hl : lookup s.regs h = none) :
    terminate s h = Except.error SchedError.InvalidHandle := by
  unfold terminate
  rw [hl]

theorem terminate_terminated (s : Core) (h : Nat) (t : TCB)
    (hl : lookup s.regs h = some t) (ht : t.state = TaskState.Terminated) :
    terminate s h = Except.error SchedError.InvalidHandle := by
  unfold terminate
  rw [hl]
  simp [ht]

theorem terminate_ok_notrun (s : Core) (h : Nat) (t : TCB)
    (hl : lookup s.regs h = some t) (ht : t.state ≠ TaskState.Terminated)
    (hrun : s.running ≠ some h) :
    terminate s h = Except.ok
      { s with
        regs := updReg s.regs h (setTCBState TaskState.Terminated)
        rq := rqRemove s.rq h
        wheel := twRemove s.wheel h
        arena := s.arena + t.stackSize
        running := s.running } := by
  unfold terminate
  rw [hl]
  simp [ht, hrun]

theorem terminate_ok_run (s : Core) (h : Nat) (t : TCB)
    (hl : lookup s.regs h = some t) (ht : t.state ≠ TaskState.Terminated)
    (hrun : s.running = some h) :
    terminate s h = Except.ok (schedule
      { s with
        regs := updReg s.regs h (setTCBState TaskState.Terminated)
        rq := rqRemove s.rq h
        wheel := twRemove s.wheel h
        arena := s.arena + t.stackSize
        running := none }) := by
  unfold terminate
  rw [hl]
  simp [ht, hrun]

theorem sleep_until_unknown (s : Core) (h wake : Nat)
    (hl : lookup s.regs h = none) :
    sleep_until s h wake = Except.error SchedError.InvalidHandle := by
  unfold sleep_until
  rw [hl]

theorem sleep_until_badstate (s : Core) (h wake : Nat) (t : TCB)
    (hl : lookup s.regs h = some t)
    (ht : ¬ (t.state = TaskState.Running ∨ t.state = TaskState.Ready)) :
    sleep_until s h wake = Except.error SchedError.InvalidTaskState := by
  unfold sleep_until
  rw [hl]
  simp only [ht, if_false]

theorem sleep_until_ok_notrun (s : Core) (h wake : Nat) (t : TCB)
    (hl : lookup s.regs h = some t)
    (ht : t.state = TaskState.Running ∨ t.state = TaskState.Ready)
    (hrun : s.running ≠ some h) :
    sleep_until s h wake = Except.ok
      { s with
        regs := updReg s.regs h (setTCBSleep wake)
        rq := rqRemove s.rq h
        wheel := twInsert (h, wake) s.wheel
        running := s.running } := by
  unfold sleep_until
  rw [hl]
  simp [ht, hrun]

theorem sleep_until_ok_run (s : Core) (h wake : Nat) (t : TCB)
    (hl : lookup s.regs h = some t)
    (ht : t.state = TaskState.Running ∨ t.state = TaskState.Ready)
    (hrun : s.running = some h) :
    sleep_until s h wake = Except.ok (schedule
      { s with
        regs := updReg s.regs h (setTCBSleep wake)
        rq := rqRemove s.rq h
        wheel := twInsert (h, wake) s.wheel
        running := none }) := by
  unfold sleep_until
  rw [hl]
  simp [ht, hrun]

theorem yield_eq_idle (s : Core) (hrun : s.running = none) :
    yield_now s = schedule s := by
  unfold yield_now
  rw [hrun]

theorem yield_eq_some (s : Core) (r : Nat) (hrun : s.running = some r) :
    yield_now s = schedule
      { s with
        regs := updReg s.regs r (setTCBState TaskState.Ready)
        rq := rqEnqueue s.rq (prioOf s.regs r) r
        running := none } := by
  unfold yield_now
  rw [hrun]

/-! ### Invariance of the registry operations -/

theorem wakeOf_setSleep_self (regs : List (Nat × TCB)) (h wake : Nat)
    (hs : (lookup regs h).isSome) :
    wakeOf (updReg regs h (setTCBSleep wake)) h = wake := by
  unfold wakeOf
  rw [lookup_updReg_self]
  obtain ⟨t, ht⟩ := Option.isSome_iff_exists.mp hs
  rw [ht]
  rfl

theorem spawn_inv (s : Core) (p k : Nat) (hInv : Inv s) :
    Inv { s with
      regs := (s.nextH, ⟨p, TaskState.Ready, 0, k⟩) :: s.regs
      rq := rqEnqueue s.rq p s.nextH
      nextH := s.nextH + 1
      arena := s.arena - k } := by
  have hfresh : s.nextH ∉ s.regs.map Prod.fst := fun hc =>
    absurd (hInv.freshH _ hc) (lt_irrefl _)
  have hkeys : ∀ a : Nat, a ∈ s.regs.map Prod.fst → a ≠ s.nextH := by
    intro a ha hc
    exact absurd (hInv.freshH a ha) (by rw [hc]; exact lt_irrefl _)
  have hrqkeys : ∀ pe ∈ s.rq, pe.2 ≠ s.nextH := fun pe hpe =>
    hkeys pe.2 ((lookup_isSome_iff _ _).mp
      (stateOf_isSome (hInv.rqOK pe hpe).1))
  have htwkeys : ∀ we ∈ s.wheel, we.1 ≠ s.nextH := fun we hwe =>
    hkeys we.1 ((lookup_isSome_iff _ _).mp
      (stateOf_isSome (hInv.twOK we hwe).1))
  refine Inv.mk ?_ ?_ ?_ ?_ ?_ ?_ ?_ ?_ ?_
  · show ((s.nextH, (⟨p, TaskState.Ready, 0, k⟩ : TCB)) ::
      s.regs).map Prod.fst |>.Nodup
    rw [List.map_cons, List.nodup_cons]
    exact ⟨hfresh, hInv.keysNodup⟩
  · show ∀ k2 ∈ ((s.nextH, (⟨p, TaskState.Ready, 0, k⟩ : TCB)) ::
      s.regs).map Prod.fst, k2 < s.nextH + 1
    intro k2 hk2
    rw [List.map_cons, List.mem_cons] at hk2
    rcases hk2 with hc | hc
    · omega
    · have := hInv.freshH k2 hc
      omega
  · show ∀ pe ∈ rqEnqueue s.rq p s.nextH,
      stateOf ((s.nextH, (⟨p, TaskState.Ready, 0, k⟩ : TCB)) :: s.regs) pe.2 =
        some TaskState.Ready ∧
      prioOf ((s.nextH, (⟨p, TaskState.Ready, 0, k⟩ : TCB)) :: s.regs) pe.2 =
        pe.1
    intro pe hpe
    rcases List.mem_append.mp hpe with hc | hc
    · have hne : s.nextH ≠ pe.2 := fun he => hrqkeys pe hc he.symm
      rw [stateOf_cons, prioOf_cons, if_neg hne, if_neg hne]
      exact hInv.rqOK pe hc
    · have : pe = (p, s.nextH) := by simpa using hc
      rw [this]
      rw [stateOf_cons, prioOf_cons]
      simp
  · show ((rqEnqueue s.rq p s.nextH).map Prod.snd).Nodup
    unfold rqEnqueue
    rw [List.map_append]
    simp only [List.map_cons, List.map_nil]
    rw [List.nodup_append]
    refine ⟨hInv.rqNodup, List.nodup_singleton _, ?_⟩
    intro x hx
    simp only [List.mem_singleton]
    obtain ⟨pe, hpe, hsnd⟩ := List.mem_map.mp hx
    intro hcontra
    exact hrqkeys pe hpe (by rw [hsnd, hcontra])
  · show ∀ we ∈ s.wheel,
      stateOf ((s.nextH, (⟨p, TaskState.Ready, 0, k⟩ : TCB)) :: s.regs) we.1 =
        some TaskState.Sleeping ∧
      wakeOf ((s.nextH, (⟨p, TaskState.Ready, 0, k⟩ : TCB)) :: s.regs) we.1 =
        we.2
    intro we hwe
    have hne : s.nextH ≠ we.1 := fun he => htwkeys we hwe he.symm
    rw [stateOf_cons, wakeOf_cons, if_neg hne, if_neg hne]
    exact hInv.twOK we hwe
  · exact hInv.twNodup
  · exact hInv.twSorted
  · show ∀ r ∈ s.running.toList,
      stateOf ((s.nextH, (⟨p, TaskState.Ready, 0, k⟩ : TCB)) :: s.regs) r =
        some TaskState.Running
    intro r hr
    have hrold := hInv.runOK r hr
    have hne : s.nextH ≠ r := fun he =>
      hkeys r ((lookup_isSome_iff _ _).mp (stateOf_isSome hrold)) he.symm
    rw [stateOf_cons, if_neg hne]
    exact hrold
  · show ∀ e2 ∈ (s.nextH, (⟨p, TaskState.Ready, 0, k⟩ : TCB)) :: s.regs,
      (e2.2.state = TaskState.Ready →
        e2.1 ∈ (rqEnqueue s.rq p s.nextH).map Prod.snd) ∧
      (e2.2.state = TaskState.Sleeping → e2.1 ∈ s.wheel.map Prod.fst) ∧
      (e2.2.state = TaskState.Running → s.running = some e2.1) ∧
      e2.2.state ≠ TaskState.Blocked
    intro e2 he2
    rcases List.mem_cons.mp he2 with hc | hc
    · rw [hc]
      refine ⟨?_, ?_, ?_, ?_⟩
      · intro _
        unfold rqEnqueue
        rw [List.map_append, List.mem_append]
        right
        simp
      · intro hsleep
        simp at hsleep
      · intro hrunning
        simp at hrunning
      · simp
    · have hold := hInv.stLoc e2 hc
      refine ⟨?_, hold.2.1, hold.2.2.1, hold.2.2.2⟩
      intro hready
      unfold rqEnqueue
      rw [List.map_append, List.mem_append]
      exact Or.inl (hold.1 hready)

theorem terminate_inv_aux (s : Core) (h : Nat) (c : Nat) (run2 : Option Nat)
    (hInv : Inv s)
    (hrun2 : (run2 = none ∧ s.running = some h) ∨
      (run2 = s.running ∧ s.running ≠ some h)) :
    Inv { s with
      regs := updReg s.regs h (setTCBState TaskState.Terminated)
      rq := rqRemove s.rq h
      wheel := twRemove s.wheel h
      arena := s.arena + c
      running := run2 } := by
  have hrqmem : ∀ pe ∈ rqRemove s.rq h, pe ∈ s.rq ∧ pe.2 ≠ h := by
    intro pe hpe
    have := List.mem_filter.mp hpe
    exact ⟨this.1, by simpa using this.2⟩
  have htwmem : ∀ we ∈ twRemove s.wheel h, we ∈ s.wheel ∧ we.1 ≠ h := by
    intro we hwe
    have := List.mem_filter.mp hwe
    exact ⟨this.1, by simpa using this.2⟩
  refine Inv.mk ?_ ?_ ?_ ?_ ?_ ?_ ?_ ?_ ?_
  · show ((updReg s.regs h
      (setTCBState TaskState.Terminated)).map Prod.fst).Nodup
    rw [keys_updReg]
    exact hInv.keysNodup
  · show ∀ k ∈ (updReg s.regs h
      (setTCBState TaskState.Terminated)).map Prod.fst, k < s.nextH
    rw [keys_updReg]
    exact hInv.freshH
  · show ∀ pe ∈ rqRemove s.rq h,
      stateOf (updReg s.regs h (setTCBState TaskState.Terminated)) pe.2 =
        some TaskState.Ready ∧
      prioOf (updReg s.regs h (setTCBState TaskState.Terminated)) pe.2 = pe.1
    intro pe hpe
    obtain ⟨hmem, hne⟩ := hrqmem pe hpe
    rw [stateOf_updReg_ne _ _ _ _ hne, prioOf_setState]
    exact hInv.rqOK pe hmem
  · show ((rqRemove s.rq h).map Prod.snd).Nodup
    exact ((List.filter_sublist _).map Prod.snd).nodup hInv.rqNodup
  · show ∀ we ∈ twRemove s.wheel h,
      stateOf (updReg s.regs h (setTCBState TaskState.Terminated)) we.1 =
        some TaskState.Sleeping ∧
      wakeOf (updReg s.regs h (setTCBState TaskState.Terminated)) we.1 = we.2
    intro we hwe
    obtain ⟨hmem, hne⟩ := htwmem we hwe
    rw [stateOf_updReg_ne _ _ _ _ hne, wakeOf_updReg_ne _ _ _ _ hne]
    exact hInv.twOK we hmem
  · show ((twRemove s.wheel h).map Prod.fst).Nodup
    exact ((List.filter_sublist _).map Prod.fst).nodup hInv.twNodup
  · show (twRemove s.wheel h).Pairwise (fun a b => a.2 ≤ b.2)
    exact hInv.twSorted.sublist (List.filter_sublist _)
  · show ∀ r ∈ run2.toList,
      stateOf (updReg s.regs h (setTCBState TaskState.Terminated)) r =
        some TaskState.Running
    intro r hr
    rcases hrun2 with ⟨hn, _⟩ | ⟨he, hne⟩
    · rw [hn] at hr
      simp at hr
    · rw [he] at hr
      simp only [Option.mem_toList, Option.mem_def] at hr
      have hrne : r ≠ h := fun hc => hne (by rw [← hc]; exact hr)
      rw [stateOf_updReg_ne _ _ _ _ hrne]
      exact hInv.runOK r (by simp [hr])
  · show ∀ e2 ∈ updReg s.regs h (setTCBState TaskState.Terminated),
      (e2.2.state = TaskState.Ready →
        e2.1 ∈ (rqRemove s.rq h).map Prod.snd) ∧
      (e2.2.state = TaskState.Sleeping →
        e2.1 ∈ (twRemove s.wheel h).map Prod.fst) ∧
      (e2.2.state = TaskState.Running → run2 = some e2.1) ∧
      e2.2.state ≠ TaskState.Blocked
    intro e2 he2
    obtain ⟨orig, horig, hcase⟩ := mem_updReg he2
    rcases hcase with ⟨hne, heq⟩ | ⟨heqh, heq⟩
    · rw [heq]
      have hold := hInv.stLoc orig horig
      refine ⟨?_, ?_, ?_, hold.2.2.2⟩
      · intro hready
        obtain ⟨pe, hpe, hsnd⟩ := List.mem_map.mp (hold.1 hready)
        refine List.mem_map.mpr ⟨pe, ?_, hsnd⟩
        refine List.mem_filter.mpr ⟨hpe, ?_⟩
        simp only [bne_iff_ne, ne_eq]
        rw [hsnd]
        exact hne
      · intro hsleep
        obtain ⟨we, hwe, hfst⟩ := List.mem_map.mp (hold.2.1 hsleep)
        refine List.mem_map.mpr ⟨we, ?_, hfst⟩
        refine List.mem_filter.mpr ⟨hwe, ?_⟩
        simp only [bne_iff_ne, ne_eq]
        rw [hfst]
        exact hne
      · intro hrunning
        have hco := hold.2.2.1 hrunning
        rcases hrun2 with ⟨_, hsh⟩ | ⟨he, _⟩
        · rw [hsh] at hco
          exact absurd (Option.some.inj hco).symm hne
        · rw [he]
          exact hco
    · rw [heq]
      refine ⟨?_, ?_, ?_, ?_⟩
      · intro hready
        simp [setTCBState] at hready
      · intro hsleep
        simp [setTCBState] at hsleep
      · intro hrunning
        simp [setTCBState] at hrunning
      · simp [setTCBState]

theorem sleep_inv_aux (s : Core) (h wake : Nat) (t : TCB) (run2 : Option Nat)
    (hInv : Inv s) (hl : lookup s.regs h = some t)
    (ht : t.state = TaskState.Running ∨ t.state = TaskState.Ready)
    (hrun2 : (run2 = none ∧ s.running = some h) ∨
      (run2 = s.running ∧ s.running ≠ some h)) :
    Inv { s with
      regs := updReg s.regs h (setTCBSleep wake)
      rq := rqRemove s.rq h
      wheel := twInsert (h, wake) s.wheel
      running := run2 } := by
  have hsome : (lookup s.regs h).isSome := by rw [hl]; rfl
  have hst : stateOf s.regs h = some t.state := by
    unfold stateOf
    rw [hl]
    rfl
  have hhw : ∀ we ∈ s.wheel, we.1 ≠ h := by
    intro we hwe hc
    have := (hInv.twOK we hwe).1
    rw [hc, hst] at this
    have := Option.some.inj this
    rcases ht with hr | hr <;> rw [hr] at this <;> simp at this
  have hrqmem : ∀ pe ∈ rqRemove s.rq h, pe ∈ s.rq ∧ pe.2 ≠ h := by
    intro pe hpe
    have := List.mem_filter.mp hpe
    exact ⟨this.1, by simpa using this.2⟩
  have hmemtw : ∀ we, we ∈ twInsert (h, wake) s.wheel ↔
      we = (h, wake) ∨ we ∈ s.wheel := fun we => mem_twInsert we _ _
  refine Inv.mk ?_ ?_ ?_ ?_ ?_ ?_ ?_ ?_ ?_
  · show ((updReg s.regs h (setTCBSleep wake)).map Prod.fst).Nodup
    rw [keys_updReg]
    exact hInv.keysNodup
  · show ∀ k ∈ (updReg s.regs h (setTCBSleep wake)).map Prod.fst, k < s.nextH
    rw [keys_updReg]
    exact hInv.freshH
  · show ∀ pe ∈ rqRemove s.rq h,
      stateOf (updReg s.regs h (setTCBSleep wake)) pe.2 =
        some TaskState.Ready ∧
      prioOf (updReg s.regs h (setTCBSleep wake)) pe.2 = pe.1
    intro pe hpe
    obtain ⟨hmem, hne⟩ := hrqmem pe hpe
    rw [stateOf_updReg_ne _ _ _ _ hne, prioOf_setSleep]
    exact hInv.rqOK pe hmem
  · show ((rqRemove s.rq h).map Prod.snd).Nodup
    exact ((List.filter_sublist _).map Prod.snd).nodup hInv.rqNodup
  · show ∀ we ∈ twInsert (h, wake) s.wheel,
      stateOf (updReg s.regs h (setTCBSleep wake)) we.1 =
        some TaskState.Sleeping ∧
      wakeOf (updReg s.regs h (setTCBSleep wake)) we.1 = we.2
    intro we hwe
    rcases (hmemtw we).mp hwe with hc | hc
    · rw [hc]
      refine ⟨?_, ?_⟩
      · exact stateOf_updReg_state s.regs h TaskState.Sleeping
          (setTCBSleep wake) hsome (fun u => rfl)
      · exact wakeOf_setSleep_self s.regs h wake hsome
    · have hne := hhw we hc
      rw [stateOf_updReg_ne _ _ _ _ hne, wakeOf_updReg_ne _ _ _ _ hne]
      exact hInv.twOK we hc
  · show ((twInsert (h, wake) s.wheel).map Prod.fst).Nodup
    have hperm := (twInsert_perm (h, wake) s.wheel).map Prod.fst
    rw [hperm.nodup_iff]
    rw [List.map_cons, List.nodup_cons]
    exact ⟨fun hc => hhw _ (List.mem_map.mp hc).choose_spec.1
      (by
        obtain ⟨we, hwe, hfst⟩ := List.mem_map.mp hc
        exact absurd hfst (hhw we hwe)), hInv.twNodup⟩
  · show (twInsert (h, wake) s.wheel).Pairwise (fun a b => a.2 ≤ b.2)
    exact twInsert_sorted _ _ hInv.twSorted
  · show ∀ r ∈ run2.toList,
      stateOf (updReg s.regs h (setTCBSleep wake)) r =
        some TaskState.Running
    intro r hr
    rcases hrun2 with ⟨hn, _⟩ | ⟨he, hne⟩
    · rw [hn] at hr
      simp at hr
    · rw [he] at hr
      simp only [Option.mem_toList, Option.mem_def] at hr
      have hrne : r ≠ h := fun hc => hne (by rw [← hc]; exact hr)
      rw [stateOf_updReg_ne _ _ _ _ hrne]
      exact hInv.runOK r (by simp [hr])
  · show ∀ e2 ∈ updReg s.regs h (setTCBSleep wake),
      (e2.2.state = TaskState.Ready →
        e2.1 ∈ (rqRemove s.rq h).map Prod.snd) ∧
      (e2.2.state = TaskState.Sleeping →
        e2.1 ∈ (twInsert (h, wake) s.wheel).map Prod.fst) ∧
      (e2.2.state = TaskState.Running → run2 = some e2.1) ∧
      e2.2.state ≠ TaskState.Blocked
    intro e2 he2
    obtain ⟨orig, horig, hcase⟩ := mem_updReg he2
    rcases hcase with ⟨hne, heq⟩ | ⟨heqh, heq⟩
    · rw [heq]
      have hold := hInv.stLoc orig horig
      refine ⟨?_, ?_, ?_, hold.2.2.2⟩
      · intro hready
        obtain ⟨pe, hpe, hsnd⟩ := List.mem_map.mp (hold.1 hready)
        refine List.mem_map.mpr ⟨pe, ?_, hsnd⟩
        refine List.mem_filter.mpr ⟨hpe, ?_⟩
        simp only [bne_iff_ne, ne_eq]
        rw [hsnd]
        exact hne
      · intro hsleep
        obtain ⟨we, hwe, hfst⟩ := List.mem_map.mp (hold.2.1 hsleep)
        exact List.mem_map.mpr ⟨we, (hmemtw we).mpr (Or.inr hwe), hfst⟩
      · intro hrunning
        have hco := hold.2.2.1 hrunning
        rcases hrun2 with ⟨_, hsh⟩ | ⟨he, _⟩
        · rw [hsh] at hco
          exact absurd (Option.some.inj hco).symm hne
        · rw [he]
          exact hco
    · rw [heq]
      refine ⟨?_, ?_, ?_, ?_⟩
      · intro hready
        simp [setTCBSleep] at hready
      · intro _
        refine List.mem_map.mpr ⟨(h, wake), (hmemtw _).mpr (Or.inl rfl), ?_⟩
        rw [heqh]
      · intro hrunning
        simp [setTCBSleep] at hrunning
      · simp [setTCBSleep]

theorem yield_inv (s : Core) (hInv : Inv s) : Inv (yield_now s) := by
  cases hrun : s.running with
  | none =>
    rw [yield_eq_idle s hrun]
    exact schedule_inv s hInv
  | some r =>
    rw [yield_eq_some s r hrun]
    refine schedule_inv _ ?_
    have hrRun : stateOf s.regs r = some TaskState.Running :=
      hInv.runOK r (by simp [hrun])
    have hrSome : (lookup s.regs r).isSome := stateOf_isSome hrRun
    have hrnotrq : ∀ pe ∈ s.rq, pe.2 ≠ r := fun pe hpe =>
      ne_of_stateOf_ne (hInv.rqOK pe hpe).1 hrRun (by simp)
    have hrnotwheel : ∀ we ∈ s.wheel, we.1 ≠ r := fun we hwe =>
      ne_of_stateOf_ne (hInv.twOK we hwe).1 hrRun (by simp)
    refine Inv.mk ?_ ?_ ?_ ?_ ?_ ?_ ?_ ?_ ?_
    · show ((updReg s.regs r (setTCBState TaskState.Ready)).map Prod.fst).Nodup
      rw [keys_updReg]
      exact hInv.keysNodup
    · show ∀ k ∈ (updReg s.regs r
        (setTCBState TaskState.Ready)).map Prod.fst, k < s.nextH
      rw [keys_updReg]
      exact hInv.freshH
    · show ∀ pe ∈ rqEnqueue s.rq (prioOf s.regs r) r,
        stateOf (updReg s.regs r (setTCBState TaskState.Ready)) pe.2 =
          some TaskState.Ready ∧
        prioOf (updReg s.regs r (setTCBState TaskState.Ready)) pe.2 = pe.1
      intro pe hpe
      rcases List.mem_append.mp hpe with hc | hc
      · have hne := hrnotrq pe hc
        rw [stateOf_updReg_ne _ _ _ _ hne, prioOf_setState]
        exact hInv.rqOK pe hc
      · have : pe = (prioOf s.regs r, r) := by simpa using hc
        rw [this]
        refine ⟨?_, ?_⟩
        · exact stateOf_updReg_state s.regs r TaskState.Ready
            (setTCBState TaskState.Ready) hrSome (fun u => rfl)
        · rw [prioOf_setState]
    · show ((rqEnqueue s.rq (prioOf s.regs r) r).map Prod.snd).Nodup
      unfold rqEnqueue
      rw [List.map_append]
      simp only [List.map_cons, List.map_nil]
      rw [List.nodup_append]
      refine ⟨hInv.rqNodup, List.nodup_singleton _, ?_⟩
      intro x hx
      simp only [List.mem_singleton]
      obtain ⟨pe, hpe, hsnd⟩ := List.mem_map.mp hx
      intro hcontra
      exact hrnotrq pe hpe (by rw [hsnd, hcontra])
    · show ∀ we ∈ s.wheel,
        stateOf (updReg s.regs r (setTCBState TaskState.Ready)) we.1 =
          some TaskState.Sleeping ∧
        wakeOf (updReg s.regs r (setTCBState TaskState.Ready)) we.1 = we.2
      intro we hwe
      have hne := hrnotwheel we hwe
      rw [stateOf_updReg_ne _ _ _ _ hne, wakeOf_updReg_ne _ _ _ _ hne]
      exact hInv.twOK we hwe
    · exact hInv.twNodup
    · exact hInv.twSorted
    · show ∀ r2 ∈ (none : Option Nat).toList,
        stateOf (updReg s.regs r (setTCBState TaskState.Ready)) r2 =
          some TaskState.Running
      intro r2 hr2
      simp at hr2
    · show ∀ e2 ∈ updReg s.regs r (setTCBState TaskState.Ready),
        (e2.2.state = TaskState.Ready →
          e2.1 ∈ (rqEnqueue s.rq (prioOf s.regs r) r).map Prod.snd) ∧
        (e2.2.state = TaskState.Sleeping → e2.1 ∈ s.wheel.map Prod.fst) ∧
        (e2.2.state = TaskState.Running → none = some e2.1) ∧
        e2.2.state ≠ TaskState.Blocked
      intro e2 he2
      obtain ⟨orig, horig, hcase⟩ := mem_updReg he2
      rcases hcase with ⟨hne, heq⟩ | ⟨heqh, heq⟩
      · rw [heq]
        have hold := hInv.stLoc orig horig
        refine ⟨?_, hold.2.1, ?_, hold.2.2.2⟩
        · intro hready
          unfold rqEnqueue
          rw [List.map_append, List.mem_append]
          exact Or.inl (hold.1 hready)
        · intro hrunning
          have hco := hold.2.2.1 hrunning
          rw [hrun] at hco
          exact absurd (Option.some.inj hco).symm hne
      · rw [heq]
        refine ⟨?_, ?_, ?_, ?_⟩
        · intro _
          unfold rqEnqueue
          rw [List.map_append, List.mem_append]
          right
          simp [heqh]
        · intro hsleep
          simp [setTCBState] at hsleep
        · intro hrunning
          simp [setTCBState] at hrunning
        · simp [setTCBState]

theorem tick_inv (s : Core) (hInv : Inv s) : Inv { s with tick := s.tick + 1 } :=
  Inv.mk hInv.keysNodup hInv.freshH hInv.rqOK hInv.rqNodup hInv.twOK
    hInv.twNodup hInv.twSorted hInv.runOK hInv.stLoc

theorem advance_inv (s : Core) (hInv : Inv s) : Inv (advance s) :=
  schedule_inv _ (expire_inv (s.tick + 1) _ _ le_rfl (tick_inv s hInv))

theorem spawn_inv_full (s : Core) (p k h2 : Nat) (s2 : Core) (hInv : Inv s)
    (hok : spawn s p k = Except.ok (h2, s2)) : Inv s2 := by
  by_cases hk : k ≤ s.arena
  · rw [spawn_ok s p k hk] at hok
    have : s2 = { s with
        regs := (s.nextH, ⟨p, TaskState.Ready, 0, k⟩) :: s.regs
        rq := rqEnqueue s.rq p s.nextH
        nextH := s.nextH + 1
        arena := s.arena - k } := by
      have := Except.ok.inj hok
      exact (congrArg Prod.snd this).symm
    rw [this]
    exact spawn_inv s p k hInv
  · rw [spawn_fail s p k hk] at hok
    exact absurd hok (by simp)

theorem terminate_inv_full (s : Core) (h : Nat) (s2 : Core) (hInv : Inv s)
    (hok : terminate s h = Except.ok s2) : Inv s2 := by
  cases hl : lookup s.regs h with
  | none =>
    rw [terminate_unknown s h hl] at hok
    exact absurd hok (by simp)
  | some t =>
    by_cases ht : t.state = TaskState.Terminated
    · rw [terminate_terminated s h t hl ht] at hok
      exact absurd hok (by simp)
    · by_cases hr : s.running = some h
      · rw [terminate_ok_run s h t hl ht hr] at hok
        rw [← Except.ok.inj hok]
        exact schedule_inv _ (terminate_inv_aux s h t.stackSize none hInv
          (Or.inl ⟨rfl, hr⟩))
      · rw [terminate_ok_notrun s h t hl ht hr] at hok
        rw [← Except.ok.inj hok]
        exact terminate_inv_aux s h t.stackSize s.running hInv
          (Or.inr ⟨rfl, hr⟩)

theorem sleep_until_inv_full (s : Core) (h wake : Nat) (s2 : Core)
    (hInv : Inv s) (hok : sleep_until s h wake = Except.ok s2) : Inv s2 := by
  cases hl : lookup s.regs h with
  | none =>
    rw [sleep_until_unknown s h wake hl] at hok
    exact absurd hok (by simp)
  | some t =>
    by_cases ht : t.state = TaskState.Running ∨ t.state = TaskState.Ready
    · by_cases hr : s.running = some h
      · rw [sleep_until_ok_run s h wake t hl ht hr] at hok
        rw [← Except.ok.inj hok]
        exact schedule_inv _ (sleep_inv_aux s h wake t none hInv hl ht
          (Or.inl ⟨rfl, hr⟩))
      · rw [sleep_until_ok_notrun s h wake t hl ht hr] at hok
        rw [← Except.ok.inj hok]
        exact sleep_inv_aux s h wake t s.running hInv hl ht (Or.inr ⟨rfl, hr⟩)
    · rw [sleep_until_badstate s h wake t hl ht] at hok
      exact absurd hok (by simp)

theorem step_inv (s : Core) (op : Op) (hInv : Inv s) : Inv (step s op) := by
  cases op with
  | spawn p k =>
    show Inv (match spawn s p k with
      | Except.ok pr => pr.2
      | Except.error _ => s)
    cases hsp : spawn s p k with
    | ok pr => exact spawn_inv_full s p k pr.1 pr.2 hInv (by rw [hsp])
    | error _ => exact hInv
  | terminate h =>
    show Inv (match terminate s h with
      | Except.ok s1 => s1
      | Except.error _ => s)
    cases hte : terminate s h with
    | ok s1 => exact terminate_inv_full s h s1 hInv hte
    | error _ => exact hInv
  | sleepFor h n =>
    show Inv (match sleep_for s h n with
      | Except.ok s1 => s1
      | Except.error _ => s)
    cases hsl : sleep_for s h n with
    | ok s1 => exact sleep_until_inv_full s h (s.tick + n) s1 hInv hsl
    | error _ => exact hInv
  | yieldNow => exact yield_inv s hInv
  | tick => exact advance_inv s hInv

theorem init_inv (a : Nat) : Inv (init a) := by
  refine Inv.mk ?_ ?_ ?_ ?_ ?_ ?_ ?_ ?_ ?_ <;> simp [init]

theorem run_inv (ops : List Op) : ∀ s : Core, Inv s → Inv (run s ops) := by
  induction ops with
  | nil => exact fun s h => h
  | cons op tl ih => exact fun s h => ih (step s op) (step_inv s op h)

/-! ### The partition property from the invariant -/

theorem inv_locCount (s : Core) (hInv : Inv s) :
    ∀ e ∈ s.regs, locCount s e.1 =
      if e.2.state = TaskState.Terminated then 0 else 1 := by
  intro e he
  have hl : lookup s.regs e.1 = some e.2 :=
    mem_lookup_of_nodup hInv.keysNodup he
  have hst : stateOf s.regs e.1 = some e.2.state := by
    unfold stateOf
    rw [hl]
    rfl
  have hrq0 : e.2.state ≠ TaskState.Ready →
      (s.rq.map Prod.snd).count e.1 = 0 := by
    intro hne
    rw [List.count_eq_zero]
    intro hmem
    obtain ⟨pe, hpe, hsnd⟩ := List.mem_map.mp hmem
    have := (hInv.rqOK pe hpe).1
    rw [hsnd, hst] at this
    exact hne (Option.some.inj this)
  have hrq1 : e.2.state = TaskState.Ready →
      (s.rq.map Prod.snd).count e.1 = 1 := fun hr =>
    List.count_eq_one_of_mem hInv.rqNodup ((hInv.stLoc e he).1 hr)
  have htw0 : e.2.state ≠ TaskState.Sleeping →
      (s.wheel.map Prod.fst).count e.1 = 0 := by
    intro hne
    rw [List.count_eq_zero]
    intro hmem
    obtain ⟨we, hwe, hfst⟩ := List.mem_map.mp hmem
    have := (hInv.twOK we hwe).1
    rw [hfst, hst] at this
    exact hne (Option.some.inj this)
  have htw1 : e.2.state = TaskState.Sleeping →
      (s.wheel.map Prod.fst).count e.1 = 1 := fun hr =>
    List.count_eq_one_of_mem hInv.twNodup ((hInv.stLoc e he).2.1 hr)
  have hrun0 : e.2.state ≠ TaskState.Running →
      (if s.running = some e.1 then 1 else 0) = 0 := by
    intro hne
    rw [if_neg]
    intro hc
    have := hInv.runOK e.1 (by simp [hc])
    rw [hst] at this
    exact hne (Option.some.inj this)
  have hrun1 : e.2.state = TaskState.Running →
      (if s.running = some e.1 then 1 else 0) = 1 := by
    intro hr
    rw [if_pos ((hInv.stLoc e he).2.2.1 hr)]
  have hnb : e.2.state ≠ TaskState.Blocked := (hInv.stLoc e he).2.2.2
  unfold locCount
  cases hstate : e.2.state with
  | Ready =>
    rw [hrq1 hstate, htw0 (by rw [hstate]; simp),
      hrun0 (by rw [hstate]; simp)]
    simp [hstate]
  | Running =>
    rw [hrq0 (by rw [hstate]; simp), htw0 (by rw [hstate]; simp),
      hrun1 hstate]
    simp [hstate]
  | Blocked => exact absurd hstate hnb
  | Sleeping =>
    rw [hrq0 (by rw [hstate]; simp), htw1 hstate,
      hrun0 (by rw [hstate]; simp)]
    simp [hstate]
  | Terminated =>
    rw [hrq0 (by rw [hstate]; simp), htw0 (by rw [hstate]; simp),
      hrun0 (by rw [hstate]; simp)]
    simp [hstate]

/-! ### Scheduler field lemmas -/

theorem schedule_tick (s : Core) : (schedule s).tick = s.tick := by
  unfold schedule
  cases findHighest s.rq with
  | none => rfl
  | some e =>
    cases s.running with
    | none => rfl
    | some r =>
      by_cases hlt : prioOf s.regs r < e.1
      · simp [hlt]
      · simp [hlt]

theorem schedule_wheel (s : Core) : (schedule s).wheel = s.wheel := by
  unfold schedule
  cases findHighest s.rq with
  | none => rfl
  | some e =>
    cases s.running with
    | none => rfl
    | some r =>
      by_cases hlt : prioOf s.regs r < e.1
      · simp [hlt]
      · simp [hlt]

theorem schedule_prioOf (s : Core) (h : Nat) :
    prioOf (schedule s).regs h = prioOf s.regs h := by
  unfold schedule
  cases findHighest s.rq with
  | none => rfl
  | some e =>
    cases s.running with
    | none =>
      show prioOf (updReg s.regs e.2 (setTCBState TaskState.Running)) h = _
      rw [prioOf_setState]
    | some r =>
      by_cases hlt : prioOf s.regs r < e.1
      · simp only [hlt, if_true]
        show prioOf (updReg (updReg s.regs e.2
          (setTCBState TaskState.Running)) r (setTCBState TaskState.Ready)) h = _
        rw [prioOf_setState, prioOf_setState]
      · simp [hlt]

theorem mem_takeWhile_of_sorted (t : Nat) (w : List (Nat × Nat))
    (hs : w.Pairwise (fun a b => a.2 ≤ b.2)) (x : Nat × Nat) (hx : x ∈ w)
    (hxt : x.2 ≤ t) : x ∈ w.takeWhile (fun e => decide (e.2 ≤ t)) := by
  induction w with
  | nil => simp at hx
  | cons y ys ih =>
    rw [List.pairwise_cons] at hs
    rcases List.mem_cons.mp hx with hc | hc
    · rw [List.takeWhile_cons]
      have hyt : y.2 ≤ t := by rw [← hc]; exact hxt
      simp only [hyt, decide_True, if_true]
      rw [hc]
      exact List.mem_cons_self _ _
    · have hyt : y.2 ≤ t := le_trans (hs.1 x hc) hxt
      rw [List.takeWhile_cons]
      simp only [hyt, decide_True, if_true]
      exact List.mem_cons_of_mem y (ih hs.2 hc)

theorem mem_of_mem_takeWhile {p : Nat × Nat → Bool} {w : List (Nat × Nat)}
    {x : Nat × Nat} (hx : x ∈ w.takeWhile p) : x ∈ w := by
  rw [← List.takeWhile_append_dropWhile p w]
  exact List.mem_append.mpr (Or.inl hx)

theorem mem_dropWhile_of_not {p : Nat × Nat → Bool} {w : List (Nat × Nat)}
    {x : Nat × Nat} (hx : x ∈ w) (hnp : p x = false) : x ∈ w.dropWhile p := by
  rw [← List.takeWhile_append_dropWhile p w] at hx
  rcases List.mem_append.mp hx with hc | hc
  · have := List.mem_takeWhile_imp hc
    rw [hnp] at this
    exact absurd this (by simp)
  · exact hc

/-! ### Claim theorems -/

/-- C1: the entire observable behaviour of `app_main` is one `xTaskCreate`
call ("blinker", 4096-byte stack, null parameter, priority
`tskIDLE_PRIORITY + 1`) spawning exactly one task, and every iteration of
that task's body logs exactly one string and then sleeps 1000 ms of ticks;
`app_main` performs no other action. -/
theorem claim_C1 :
    (app_main true).actions =
      [Action.createTask "blinker" 4096 true (tskIDLE_PRIORITY + 1)] ∧
    (app_main true).actions.length = 1 ∧
    (app_main true).tasksSpawned = 1 ∧
    (app_main true).returnsNormally = true ∧
    ∀ (param : Option Nat) (i : Nat),
      taskBodyIteration param i =
        [Action.logInfo "app" "Hello from C++ FreeRTOS task",
          Action.delayMsTicks 1000] :=
  ⟨rfl, rfl, rfl, rfl, fun _ _ => rfl⟩

/-- C9: `app_main` ignores the result of `xTaskCreate` and returns
normally in every case: the action trace is identical whether creation
succeeds or fails, contains exactly one creation attempt (no retry) and no
log action (no error report), and on failure no task is spawned. -/
theorem claim_C9 :
    ∀ createSucceeds : Bool,
      (app_main createSucceeds).returnsNormally = true ∧
      (app_main createSucceeds).actions = (app_main true).actions ∧
      ((app_main createSucceeds).actions.countP (fun a =>
        match a with
        | Action.createTask _ _ _ _ => true
        | _ => false)) = 1 ∧
      ((app_main createSucceeds).actions.countP (fun a =>
        match a with
        | Action.logInfo _ _ => true
        | _ => false)) = 0 ∧
      (app_main false).tasksSpawned = 0 := by
  intro b
  exact ⟨rfl, by cases b <;> rfl, by cases b <;> rfl, by cases b <;> rfl, rfl⟩

/-- C10: the spawned task's behaviour is deterministic and independent of
its `void*` parameter: any two iterations with any parameter values
produce the identical action list — the log "Hello from C++ FreeRTOS
task" under tag "app" followed by the 1000 ms delay. -/
theorem claim_C10 :
    ∀ (p q : Option Nat) (i j : Nat),
      taskBodyIteration p i = taskBodyIteration q j ∧
      taskBodyIteration p i =
        [Action.logInfo "app" "Hello from C++ FreeRTOS task",
          Action.delayMsTicks 1000] :=
  fun _ _ _ _ => ⟨rfl, rfl⟩

/-- C2: in every state reachable from boot by any sequence of
spawn/terminate/sleep_for/yield_now calls and ticks, every registered TCB
is in exactly one of {Ready Queue, Timer Wheel, Running slot} when
non-Terminated, and in none of them when Terminated. -/
theorem claim_C2 :
    ∀ (a : Nat) (ops : List Op) (e : Nat × TCB),
      e ∈ (run (init a) ops).regs →
      locCount (run (init a) ops) e.1 =
        if e.2.state = TaskState.Terminated then 0 else 1 := by
  intro a ops e he
  exact inv_locCount _ (run_inv ops _ (init_inv a)) e he

theorem claim_C2_witness :
    locCount (run (init 100) [Op.spawn 1 10, Op.spawn 1 10, Op.tick,
      Op.sleepFor 0 3]) 0 = 1 := by
  have h := claim_C2 100 [Op.spawn 1 10, Op.spawn 1 10, Op.tick,
    Op.sleepFor 0 3] (0, ⟨1, TaskState.Sleeping, 4, 10⟩) (by decide)
  rw [if_neg (by decide)] at h
  exact h

/-- C5: `terminate` on an unknown or already-Terminated handle fails with
`InvalidHandle` and has no effect on the state; in particular the
live-task count is unchanged. -/
theorem claim_C5 (s : Core) (h : Nat)
    (hbad : stateOf s.regs h = none ∨
      stateOf s.regs h = some TaskState.Terminated) :
    terminate s h = Except.error SchedError.InvalidHandle ∧
    step s (Op.terminate h) = s ∧
    liveCount (step s (Op.terminate h)) = liveCount s := by
  have herr : terminate s h = Except.error SchedError.InvalidHandle := by
    rcases hbad with hnone | hterm
    · have hl : lookup s.regs h = none := by
        unfold stateOf at hnone
        exact Option.map_eq_none'.mp hnone
      exact terminate_unknown s h hl
    · cases hl : lookup s.regs h with
      | none => exact terminate_unknown s h hl
      | some t =>
        have hts : t.state = TaskState.Terminated := by
          unfold stateOf at hterm
          rw [hl] at hterm
          exact Option.some.inj (by simpa using hterm)
        exact terminate_terminated s h t hl hts
  have hstep : step s (Op.terminate h) = s := by
    show (match terminate s h with
      | Except.ok s1 => s1
      | Except.error _ => s) = s
    rw [herr]
  exact ⟨herr, hstep, by rw [hstep]⟩

theorem claim_C5_witness :
    terminate (⟨0, [(0, ⟨1, TaskState.Terminated, 0, 4⟩)], [], [], none,
      1, 5⟩ : Core) 0 = Except.error SchedError.InvalidHandle ∧
    liveCount (step (⟨0, [(0, ⟨1, TaskState.Terminated, 0, 4⟩)], [], [],
      none, 1, 5⟩ : Core) (Op.terminate 0)) =
      liveCount (⟨0, [(0, ⟨1, TaskState.Terminated, 0, 4⟩)], [], [], none,
        1, 5⟩ : Core) := by
  have h := claim_C5 (⟨0, [(0, ⟨1, TaskState.Terminated, 0, 4⟩)], [], [],
    none, 1, 5⟩ : Core) 0 (Or.inr (by decide))
  exact ⟨h.1, h.2.2⟩

theorem find?_split {α : Type} {p : α → Bool} {l : List α} {a : α}
    (hf : l.find? p = some a) :
    ∃ l1 l2, l = l1 ++ a :: l2 ∧ ∀ x ∈ l1, ¬ p x = true := by
  induction l with
  | nil => simp at hf
  | cons x xs ih =>
    by_cases hp : p x
    · rw [List.find?_cons_of_pos xs hp] at hf
      have hax : a = x := (Option.some.inj hf).symm
      exact ⟨[], xs, by rw [hax]; rfl, by simp⟩
    · rw [List.find?_cons_of_neg xs hp] at hf
      obtain ⟨l1, l2, hsplit, hnone⟩ := ih hf
      refine ⟨x :: l1, l2, by rw [hsplit]; rfl, ?_⟩
      intro y hy
      rcases List.mem_cons.mp hy with hc | hc
      · rw [hc]
        exact hp
      · exact hnone y hc

/-- C3: `dequeue_highest` fails with `EmptyQueue` exactly when the Ready
Queue is empty; on success it returns the head of the highest non-empty
priority sequence and removes exactly that entry; and the Scheduler never
surfaces `EmptyQueue` — with an empty Ready Queue, `schedule` is the
identity, so whatever occupied the running slot (in particular the Idle
task, `running = none`) simply keeps running. -/
theorem claim_C3 :
    (∀ rq : List (Nat × Nat),
      (dequeue_highest rq = Except.error SchedError.EmptyQueue ↔ rq = [])) ∧
    (∀ (rq rq2 : List (Nat × Nat)) (e : Nat × Nat),
      dequeue_highest rq = Except.ok (e, rq2) →
      (∀ x ∈ rq, x.1 ≤ e.1) ∧
      rq.filter (fun x => x.1 == e.1) =
        e :: rq2.filter (fun x => x.1 == e.1) ∧
      rq.Perm (e :: rq2)) ∧
    (∀ s : Core, s.rq = [] → schedule s = s ∧
      (schedule s).running = s.running) := by
  refine ⟨?_, ?_, ?_⟩
  · intro rq
    constructor
    · intro herr
      cases hfh : findHighest rq with
      | none => exact (findHighest_eq_none_iff rq).mp hfh
      | some e =>
        unfold dequeue_highest at herr
        rw [hfh] at herr
        simp at herr
    · intro hnil
      rw [hnil]
      rfl
  · intro rq rq2 e hok
    cases hfh : findHighest rq with
    | none =>
      unfold dequeue_highest at hok
      rw [hfh] at hok
      simp at hok
    | some e0 =>
      unfold dequeue_highest at hok
      rw [hfh] at hok
      have hpair := Except.ok.inj hok
      injection hpair with he0 hrq2raw
      subst he0
      have hrq2 : rq2 = rq.erase e0 := hrq2raw.symm
      have heMem : e0 ∈ rq := findHighest_mem hfh
      obtain ⟨l1, l2, hsplit, hnone⟩ := find?_split hfh
      have hl1 : ∀ x ∈ l1, (x.1 == e0.1) = false := by
        intro x hx
        have hne := hnone x hx
        rw [findHighest_prio hfh]
        simpa using hne
      have herase : rq.erase e0 = l1 ++ l2 := by
        rw [hsplit]
        rw [List.erase_append_right]
        · rw [List.erase_cons_head]
        · intro hc
          have := hl1 e0 hc
          simp at this
      refine ⟨findHighest_top hfh, ?_, ?_⟩
      · rw [hrq2, herase, hsplit]
        rw [List.filter_append, List.filter_append]
        have hfl1 : l1.filter (fun x => x.1 == e0.1) = [] := by
          rw [List.filter_eq_nil_iff]
          intro x hx
          rw [hl1 x hx]
          simp
        rw [hfl1]
        rw [List.filter_cons]
        simp
      · rw [hrq2, herase, hsplit]
        exact List.perm_middle
  · intro s hnil
    have hfh : findHighest s.rq = none := by
      rw [(findHighest_eq_none_iff s.rq).mpr hnil]
    have := schedule_eq_empty s hfh
    exact ⟨this, by rw [this]⟩

theorem claim_C3_witness :
    (dequeue_highest ([] : List (Nat × Nat)) =
      Except.error SchedError.EmptyQueue) ∧
    ((∀ x ∈ ([(1, 5), (2, 7), (2, 9)] : List (Nat × Nat)), x.1 ≤ 2) ∧
      ([(1, 5), (2, 7), (2, 9)] : List (Nat × Nat)).filter
          (fun x => x.1 == 2) =
        (2, 7) :: ([(1, 5), (2, 9)] : List (Nat × Nat)).filter
          (fun x => x.1 == 2) ∧
      ([(1, 5), (2, 7), (2, 9)] : List (Nat × Nat)).Perm
        ((2, 7) :: [(1, 5), (2, 9)])) := by
  refine ⟨(claim_C3.1 []).mpr rfl, ?_⟩
  exact claim_C3.2.1 [(1, 5), (2, 7), (2, 9)] [(1, 5), (2, 9)] (2, 7) rfl

/-- C4: for every tick value `t`, `expire t` removes from the (ascending)
Timer Wheel exactly the entries with wake tick at most `t`, transitions
each removed task to Ready, and appends them, in wheel order, at the tail
of the Ready Queue paired with their task's priority; entries with larger
wake ticks stay; and `twInsert` places a new entry after every entry with
an equal or smaller wake tick, so entries with equal wake ticks expire in
insertion order. -/
theorem claim_C4 (s : Core) (t : Nat)
    (hs : s.wheel.Pairwise (fun a b => a.2 ≤ b.2))
    (hreg : ∀ e ∈ s.wheel, (lookup s.regs e.1).isSome) :
    (expire t s).wheel = s.wheel.filter (fun e => decide (t < e.2)) ∧
    (expire t s).rq = s.rq ++
      (s.wheel.filter (fun e => decide (e.2 ≤ t))).map
        (fun e => (prioOf s.regs e.1, e.1)) ∧
    (∀ e ∈ s.wheel, e.2 ≤ t →
      stateOf (expire t s).regs e.1 = some TaskState.Ready) ∧
    (∀ e ∈ s.wheel, ¬ e.2 ≤ t → e ∈ (expire t s).wheel) ∧
    (∀ (w : List (Nat × Nat)) (x : Nat × Nat),
      twInsert x w = w.takeWhile (fun y => decide (y.2 ≤ x.2)) ++
        x :: w.dropWhile (fun y => decide (y.2 ≤ x.2))) := by
  obtain ⟨_, _, _, _, _, _, hwheel, hrq, _⟩ :=
    expire_main t s.wheel.length s le_rfl
  refine ⟨?_, ?_, ?_, ?_, fun w x => twInsert_split x w⟩
  · rw [hwheel, sorted_dropWhile_eq_filter t s.wheel hs]
  · rw [hrq, sorted_takeWhile_eq_filter t s.wheel hs]
  · intro e he hle
    refine expire_released_ready t s.wheel.length s le_rfl e.1 ?_
      (hreg e he)
    refine List.mem_map.mpr ⟨e, ?_, rfl⟩
    exact mem_takeWhile_of_sorted t s.wheel hs e he hle
  · intro e he hgt
    rw [hwheel]
    exact mem_dropWhile_of_not he (by simpa using hgt)

theorem claim_C4_witness :
    (expire 2 (⟨0, [(0, ⟨1, TaskState.Sleeping, 1, 4⟩),
        (1, ⟨2, TaskState.Sleeping, 3, 4⟩)], [], [(0, 1), (1, 3)], none,
        2, 0⟩ : Core)).wheel =
      ([(0, 1), (1, 3)] : List (Nat × Nat)).filter
        (fun e => decide (2 < e.2)) ∧
    stateOf (expire 2 (⟨0, [(0, ⟨1, TaskState.Sleeping, 1, 4⟩),
        (1, ⟨2, TaskState.Sleeping, 3, 4⟩)], [], [(0, 1), (1, 3)], none,
        2, 0⟩ : Core)).regs 0 = some TaskState.Ready := by
  have h := claim_C4 (⟨0, [(0, ⟨1, TaskState.Sleeping, 1, 4⟩),
    (1, ⟨2, TaskState.Sleeping, 3, 4⟩)], [], [(0, 1), (1, 3)], none,
    2, 0⟩ : Core) 2 (by decide) (by decide)
  exact ⟨h.1, h.2.2.1 (0, 1) (by decide) (by decide)⟩

theorem eq_of_fst_count_one {l : List (Nat × Nat)} {h : Nat}
    (hc : (l.map Prod.fst).count h = 1) {x y : Nat × Nat} (hx : x ∈ l)
    (hy : y ∈ l) (hx1 : x.1 = h) (hy1 : y.1 = h) : x = y := by
  have hcp : l.countP (fun e => e.1 == h) = 1 := by
    have h1 : (l.map Prod.fst).count h =
        (l.map Prod.fst).countP (fun b => b == h) := rfl
    rw [h1, List.countP_map] at hc
    exact hc
  rw [List.countP_eq_length_filter] at hcp
  obtain ⟨a, ha⟩ := List.length_eq_one.mp hcp
  have hxf : x ∈ l.filter (fun e => e.1 == h) :=
    List.mem_filter.mpr ⟨hx, by simp [hx1]⟩
  have hyf : y ∈ l.filter (fun e => e.1 == h) :=
    List.mem_filter.mpr ⟨hy, by simp [hy1]⟩
  rw [ha] at hxf hyf
  rw [List.mem_singleton.mp hxf, List.mem_singleton.mp hyf]

theorem schedule_untouched (s : Core) (h : Nat)
    (hrq : h ∉ s.rq.map Prod.snd) (hrun : s.running ≠ some h) :
    stateOf (schedule s).regs h = stateOf s.regs h ∧
    h ∉ (schedule s).rq.map Prod.snd ∧
    (schedule s).running ≠ some h := by
  cases hfh : findHighest s.rq with
  | none =>
    rw [schedule_eq_empty s hfh]
    exact ⟨rfl, hrq, hrun⟩
  | some e =>
    have heMem := findHighest_mem hfh
    have hene : e.2 ≠ h := fun hc => hrq (List.mem_map.mpr ⟨e, heMem, hc⟩)
    have herase_sub : ((s.rq.erase e).map Prod.snd) ⊆ s.rq.map Prod.snd :=
      ((List.erase_sublist e s.rq).map Prod.snd).subset
    cases hrc : s.running with
    | none =>
      rw [schedule_eq_idle s e hfh hrc]
      refine ⟨?_, ?_, ?_⟩
      · exact stateOf_updReg_ne _ _ _ _ (fun hc => hene hc.symm)
      · intro hc
        exact hrq (herase_sub hc)
      · intro hc
        exact hene (Option.some.inj hc)
    | some r =>
      have hrne : r ≠ h := fun hc => hrun (by rw [hrc, hc])
      by_cases hlt : prioOf s.regs r < e.1
      · rw [schedule_eq_preempt s e r hfh hrc hlt]
        refine ⟨?_, ?_, ?_⟩
        · rw [stateOf_updReg_ne _ _ _ _ (fun hc => hrne hc.symm),
            stateOf_updReg_ne _ _ _ _ (fun hc => hene hc.symm)]
        · intro hc
          unfold rqEnqueue at hc
          rw [List.map_append, List.mem_append] at hc
          rcases hc with hc | hc
          · exact hrq (herase_sub hc)
          · simp only [List.map_cons, List.map_nil,
              List.mem_singleton] at hc
            exact hrne hc.symm
        · intro hc
          exact hene (Option.some.inj hc)
      · rw [schedule_eq_keep s e r hfh hrc hlt]
        exact ⟨rfl, hrq, hrun⟩

theorem advanceIter_succ_out :
    ∀ (k : Nat) (s : Core), advanceIter (k + 1) s = advance (advanceIter k s) := by
  intro k
  induction k with
  | zero => intro s; rfl
  | succ k ih =>
    intro s
    show advanceIter (k + 1) (advance s) = advance (advanceIter (k + 1) s)
    rw [ih (advance s)]
    rfl

theorem rqRemove_not_mem (rq : List (Nat × Nat)) (h : Nat) :
    h ∉ (rqRemove rq h).map Prod.snd := by
  intro hc
  obtain ⟨pe, hpe, hsnd⟩ := List.mem_map.mp hc
  have := (List.mem_filter.mp hpe).2
  rw [hsnd] at this
  simp at this

theorem sleep_for_ok_sleeping (s s1 : Core) (h n : Nat)
    (hok : sleep_for s h n = Except.ok s1) :
    stateOf s1.regs h = some TaskState.Sleeping := by
  unfold sleep_for at hok
  cases hl : lookup s.regs h with
  | none =>
    rw [sleep_until_unknown s h (s.tick + n) hl] at hok
    exact absurd hok (by simp)
  | some t =>
    by_cases ht : t.state = TaskState.Running ∨ t.state = TaskState.Ready
    · have hsome : (lookup s.regs h).isSome := by rw [hl]; rfl
      by_cases hr : s.running = some h
      · rw [sleep_until_ok_run s h (s.tick + n) t hl ht hr] at hok
        rw [← Except.ok.inj hok]
        have hst : stateOf (updReg s.regs h
            (setTCBSleep (s.tick + n))) h = some TaskState.Sleeping :=
          stateOf_updReg_state s.regs h TaskState.Sleeping
            (setTCBSleep (s.tick + n)) hsome (fun u => rfl)
        have := schedule_untouched
          { s with
            regs := updReg s.regs h (setTCBSleep (s.tick + n))
            rq := rqRemove s.rq h
            wheel := twInsert (h, s.tick + n) s.wheel
            running := none } h (rqRemove_not_mem s.rq h) (by simp)
        rw [this.1]
        exact hst
      · rw [sleep_until_ok_notrun s h (s.tick + n) t hl ht hr] at hok
        rw [← Except.ok.inj hok]
        exact stateOf_updReg_state s.regs h TaskState.Sleeping
          (setTCBSleep (s.tick + n)) hsome (fun u => rfl)
    · rw [sleep_until_badstate s h (s.tick + n) t hl ht] at hok
      exact absurd hok (by simp)

theorem sleep_for_ok_pending (s s1 : Core) (h n : Nat)
    (hok : sleep_for s h n = Except.ok s1)
    (hnotin : h ∉ s.wheel.map Prod.fst) :
    SleepPending s1 h (s.tick + n) ∧ s1.tick = s.tick := by
  unfold sleep_for at hok
  cases hl : lookup s.regs h with
  | none =>
    rw [sleep_until_unknown s h (s.tick + n) hl] at hok
    exact absurd hok (by simp)
  | some t =>
    by_cases ht : t.state = TaskState.Running ∨ t.state = TaskState.Ready
    · have hsome : (lookup s.regs h).isSome := by rw [hl]; rfl
      have hcount : ((twInsert (h, s.tick + n) s.wheel).map Prod.fst).count
          h = 1 := by
        have hperm := (twInsert_perm (h, s.tick + n) s.wheel).map Prod.fst
        rw [hperm.count_eq]
        rw [List.map_cons, List.count_cons_self]
        rw [List.count_eq_zero.mpr hnotin]
      have hwmem : (h, s.tick + n) ∈ twInsert (h, s.tick + n) s.wheel :=
        (mem_twInsert _ _ _).mpr (Or.inl rfl)
      have hst : stateOf (updReg s.regs h
          (setTCBSleep (s.tick + n))) h = some TaskState.Sleeping :=
        stateOf_updReg_state s.regs h TaskState.Sleeping
          (setTCBSleep (s.tick + n)) hsome (fun u => rfl)
      by_cases hr : s.running = some h
      · rw [sleep_until_ok_run s h (s.tick + n) t hl ht hr] at hok
        rw [← Except.ok.inj hok]
        set s1nr : Core :=
          { s with
            regs := updReg s.regs h (setTCBSleep (s.tick + n))
            rq := rqRemove s.rq h
            wheel := twInsert (h, s.tick + n) s.wheel
            running := none } with hs1nr
        have hu := schedule_untouched s1nr h (rqRemove_not_mem s.rq h)
          (by simp [hs1nr])
        refine ⟨⟨?_, ?_, ?_, ?_, ?_⟩, ?_⟩
        · rw [hu.1]
          exact hst
        · rw [schedule_wheel]
          exact hwmem
        · rw [schedule_wheel]
          exact hcount
        · exact hu.2.1
        · exact hu.2.2
        · rw [schedule_tick]
      · rw [sleep_until_ok_notrun s h (s.tick + n) t hl ht hr] at hok
        rw [← Except.ok.inj hok]
        exact ⟨⟨hst, hwmem, hcount, rqRemove_not_mem s.rq h, hr⟩, rfl⟩
    · rw [sleep_until_badstate s h (s.tick + n) t hl ht] at hok
      exact absurd hok (by simp)

theorem sleepPending_advance (s2 : Core) (h wake : Nat)
    (hp : SleepPending s2 h wake) (hlt : s2.tick + 1 < wake) :
    SleepPending (advance s2) h wake ∧ (advance s2).tick = s2.tick + 1 := by
  obtain ⟨hst, hwmem, hcount, hrq, hrun⟩ := hp
  set t : Nat := s2.tick + 1 with hts
  set sp : Core := { s2 with tick := s2.tick + 1 } with hsp
  obtain ⟨htick3, hrun3, _, _, _, hprio3, hwheel3, hrq3, hlook3⟩ :=
    expire_main t sp.wheel.length sp le_rfl
  have hspw : sp.wheel = s2.wheel := rfl
  have hnotake : h ∉ (sp.wheel.takeWhile
      (fun e => decide (e.2 ≤ t))).map Prod.fst := by
    intro hc
    obtain ⟨we, hwe, hfst⟩ := List.mem_map.mp hc
    have hwemem : we ∈ s2.wheel := by
      rw [← hspw]
      exact mem_of_mem_takeWhile hwe
    have hpred := List.mem_takeWhile_imp hwe
    have hwake : we = (h, wake) :=
      eq_of_fst_count_one hcount hwemem (by rw [← hspw]; exact hwmem) hfst rfl
    rw [hwake] at hpred
    simp only [decide_eq_true_eq] at hpred
    omega
  have hstate3 : stateOf (expire t sp).regs h = some TaskState.Sleeping := by
    unfold stateOf
    rw [hlook3 h hnotake]
    exact hst
  have hwmem3 : (h, wake) ∈ (expire t sp).wheel := by
    rw [hwheel3, hspw]
    refine mem_dropWhile_of_not hwmem ?_
    simp only [decide_eq_false_iff_not]
    omega
  have hcount3 : ((expire t sp).wheel.map Prod.fst).count h = 1 := by
    have hle : ((expire t sp).wheel.map Prod.fst).count h ≤ 1 := by
      rw [hwheel3, hspw]
      calc ((s2.wheel.dropWhile (fun e => decide (e.2 ≤ t))).map
            Prod.fst).count h
          ≤ (s2.wheel.map Prod.fst).count h :=
            ((List.dropWhile_sublist _).map Prod.fst).count_le h
        _ = 1 := hcount
    have hge : 1 ≤ ((expire t sp).wheel.map Prod.fst).count h := by
      rw [Nat.succ_le_iff]
      rw [List.count_pos_iff]
      exact List.mem_map.mpr ⟨(h, wake), hwmem3, rfl⟩
    omega
  have hrq3n : h ∉ (expire t sp).rq.map Prod.snd := by
    rw [hrq3]
    intro hc
    rw [List.map_append, List.mem_append] at hc
    rcases hc with hc | hc
    · exact hrq hc
    · obtain ⟨pe, hpe, hsnd⟩ := List.mem_map.mp hc
      obtain ⟨we, hwe, hweq⟩ := List.mem_map.mp hpe
      refine hnotake (List.mem_map.mpr ⟨we, hwe, ?_⟩)
      rw [← hsnd, ← hweq]
  have hrun3n : (expire t sp).running ≠ some h := by
    rw [hrun3]
    exact hrun
  have hu := schedule_untouched (expire t sp) h hrq3n hrun3n
  show SleepPending (schedule (expire t sp)) h wake ∧
    (schedule (expire t sp)).tick = s2.tick + 1
  refine ⟨⟨?_, ?_, ?_, hu.2.1, hu.2.2⟩, ?_⟩
  · rw [hu.1]
    exact hstate3
  · rw [schedule_wheel]
    exact hwmem3
  · rw [schedule_wheel]
    exact hcount3
  · rw [schedule_tick, htick3]

/-- C8: `sleep_for n` followed immediately by `sleep_for 0` on the same
task has exactly the same effect as `sleep_for n` alone (the second call
finds the task already Sleeping — not Running/Ready — and fails with
`InvalidTaskState`, changing nothing); and a task that went to sleep for
`n` ticks is still Sleeping after any `k < n` further ticks, so it never
becomes Ready before its requested tick count has elapsed. -/
theorem claim_C8 :
    (∀ (s s1 : Core) (h n : Nat), sleep_for s h n = Except.ok s1 →
      sleep_for s1 h 0 = Except.error SchedError.InvalidTaskState ∧
      run s [Op.sleepFor h n, Op.sleepFor h 0] = s1) ∧
    (∀ (s s1 : Core) (h n k : Nat), sleep_for s h n = Except.ok s1 →
      h ∉ s.wheel.map Prod.fst → k < n →
      stateOf (advanceIter k s1).regs h = some TaskState.Sleeping) := by
  constructor
  · intro s s1 h n hok
    have hsl := sleep_for_ok_sleeping s s1 h n hok
    obtain ⟨t', ht'⟩ := Option.isSome_iff_exists.mp (stateOf_isSome hsl)
    have hts : t'.state = TaskState.Sleeping := by
      unfold stateOf at hsl
      rw [ht'] at hsl
      simpa using hsl
    have herr : sleep_for s1 h 0 =
        Except.error SchedError.InvalidTaskState := by
      unfold sleep_for
      refine sleep_until_badstate s1 h (s1.tick + 0) t' ht' ?_
      rw [hts]
      simp
    have hstep1 : step s (Op.sleepFor h n) = s1 := by
      show (match sleep_for s h n with
        | Except.ok s2 => s2
        | Except.error _ => s) = s1
      rw [hok]
    have hstep2 : step s1 (Op.sleepFor h 0) = s1 := by
      show (match sleep_for s1 h 0 with
        | Except.ok s2 => s2
        | Except.error _ => s1) = s1
      rw [herr]
    refine ⟨herr, ?_⟩
    show run (step s (Op.sleepFor h n)) [Op.sleepFor h 0] = s1
    rw [hstep1]
    show run (step s1 (Op.sleepFor h 0)) [] = s1
    rw [hstep2]
    rfl
  · intro s s1 h n k hok hnotin hk
    obtain ⟨hpend, htick⟩ := sleep_for_ok_pending s s1 h n hok hnotin
    have main : ∀ j, j < n →
        SleepPending (advanceIter j s1) h (s.tick + n) ∧
        (advanceIter j s1).tick = s.tick + j := by
      intro j
      induction j with
      | zero =>
        intro _
        refine ⟨hpend, ?_⟩
        rw [show advanceIter 0 s1 = s1 from rfl, htick]
        omega
      | succ j ih =>
        intro hjn
        obtain ⟨hp, ht⟩ := ih (Nat.lt_of_succ_lt hjn)
        rw [advanceIter_succ_out]
        have hlt : (advanceIter j s1).tick + 1 < s.tick + n := by
          rw [ht]
          omega
        obtain ⟨hp2, ht2⟩ := sleepPending_advance _ _ _ hp hlt
        refine ⟨hp2, ?_⟩
        rw [ht2, ht]
        omega
    exact (main k hk).1.1

theorem claim_C8_witness :
    sleep_for (⟨0, [(0, ⟨1, TaskState.Sleeping, 3, 4⟩)], [], [(0, 3)], none,
      1, 0⟩ : Core) 0 0 = Except.error SchedError.InvalidTaskState ∧
    stateOf (advanceIter 2 (⟨0, [(0, ⟨1, TaskState.Sleeping, 3, 4⟩)], [],
      [(0, 3)], none, 1, 0⟩ : Core)).regs 0 = some TaskState.Sleeping := by
  constructor
  · exact (claim_C8.1 (⟨0, [(0, ⟨1, TaskState.Running, 0, 4⟩)], [], [],
      some 0, 1, 0⟩ : Core) (⟨0, [(0, ⟨1, TaskState.Sleeping, 3, 4⟩)], [],
      [(0, 3)], none, 1, 0⟩ : Core) 0 3 rfl).1
  · exact claim_C8.2 (⟨0, [(0, ⟨1, TaskState.Running, 0, 4⟩)], [], [],
      some 0, 1, 0⟩ : Core) (⟨0, [(0, ⟨1, TaskState.Sleeping, 3, 4⟩)], [],
      [(0, 3)], none, 1, 0⟩ : Core) 0 3 2 rfl (by decide) (by decide)

/-- C7: if task `A` of priority `p` occupies the running slot and task `B`
of priority `p + 1` is due to become Ready at tick `T = current tick + 1`
(its wheel entry carries that wake tick), and no other task anywhere has
priority above `p`, then the very tick advance that releases `B` already
switches the running slot to `B` — the switch happens at tick `T` itself,
within the one-tick preemption latency bound. -/
theorem claim_C7 (s : Core) (A B p : Nat)
    (hrun : s.running = some A)
    (hAp : prioOf s.regs A = p)
    (hBw : (B, s.tick + 1) ∈ s.wheel)
    (hBp : prioOf s.regs B = p + 1)
    (hsort : s.wheel.Pairwise (fun a b => a.2 ≤ b.2))
    (hrq : ∀ e ∈ s.rq, e.1 ≤ p)
    (hwheel : ∀ e ∈ s.wheel, e.1 = B ∨ prioOf s.regs e.1 ≤ p) :
    (advance s).running = some B ∧ (advance s).tick = s.tick + 1 := by
  set t : Nat := s.tick + 1 with hts
  set sp : Core := { s with tick := s.tick + 1 } with hsp
  obtain ⟨htick3, hrun3, _, _, _, hprio3, _, hrq3, _⟩ :=
    expire_main t sp.wheel.length sp le_rfl
  have hspw : sp.wheel = s.wheel := rfl
  have hsprq : sp.rq = s.rq := rfl
  have hspregs : sp.regs = s.regs := rfl
  have hBtake : (B, s.tick + 1) ∈ sp.wheel.takeWhile
      (fun e => decide (e.2 ≤ t)) := by
    rw [hspw]
    exact mem_takeWhile_of_sorted t s.wheel hsort _ hBw le_rfl
  have hBrq3 : (p + 1, B) ∈ (expire t sp).rq := by
    rw [hrq3]
    refine List.mem_append.mpr (Or.inr ?_)
    refine List.mem_map.mpr ⟨(B, s.tick + 1), hBtake, ?_⟩
    show (prioOf sp.regs B, B) = (p + 1, B)
    rw [hspregs, hBp]
  have hbound : ∀ e ∈ (expire t sp).rq, e.1 ≤ p + 1 := by
    rw [hrq3]
    intro e he
    rcases List.mem_append.mp he with hc | hc
    · have := hrq e (by rw [← hsprq]; exact hc)
      omega
    · obtain ⟨we, hwe, hweq⟩ := List.mem_map.mp hc
      have hwmem : we ∈ s.wheel := by
        rw [← hspw]
        exact mem_of_mem_takeWhile hwe
      rcases hwheel we hwmem with hB | hle
      · rw [← hweq]
        show prioOf sp.regs we.1 ≤ p + 1
        rw [hspregs, hB, hBp]
      · rw [← hweq]
        show prioOf sp.regs we.1 ≤ p + 1
        rw [hspregs]
        omega
  have honly : ∀ e ∈ (expire t sp).rq, e.1 = p + 1 → e.2 = B := by
    rw [hrq3]
    intro e he hp1
    rcases List.mem_append.mp he with hc | hc
    · have := hrq e (by rw [← hsprq]; exact hc)
      omega
    · obtain ⟨we, hwe, hweq⟩ := List.mem_map.mp hc
      have hwmem : we ∈ s.wheel := by
        rw [← hspw]
        exact mem_of_mem_takeWhile hwe
      rcases hwheel we hwmem with hB | hle
      · rw [← hweq]
        exact hB
      · rw [← hweq] at hp1
        have : prioOf sp.regs we.1 = p + 1 := hp1
        rw [hspregs] at this
        omega
  have hnonempty : (expire t sp).rq ≠ [] := List.ne_nil_of_mem hBrq3
  have hmax : maxPrio (expire t sp).rq = p + 1 := by
    have h1 : p + 1 ≤ maxPrio (expire t sp).rq :=
      le_maxPrio _ (p + 1, B) hBrq3
    obtain ⟨e, he, hemax⟩ := maxPrio_exists _ hnonempty
    have h2 : maxPrio (expire t sp).rq ≤ p + 1 := by
      rw [← hemax]
      exact hbound e he
    omega
  cases hfh : findHighest (expire t sp).rq with
  | none =>
    exact absurd ((findHighest_eq_none_iff _).mp hfh) hnonempty
  | some e =>
    have he2B : e.2 = B := honly e (findHighest_mem hfh)
      (by rw [findHighest_prio hfh, hmax])
    have hlt : prioOf (expire t sp).regs A < e.1 := by
      rw [hprio3, hspregs, hAp, findHighest_prio hfh, hmax]
      omega
    have hrunA : (expire t sp).running = some A := by
      rw [hrun3]
      exact hrun
    show (schedule (expire t sp)).running = some B ∧
      (schedule (expire t sp)).tick = s.tick + 1
    rw [schedule_eq_preempt (expire t sp) e A hfh hrunA hlt]
    constructor
    · show some e.2 = some B
      rw [he2B]
    · show (expire t sp).tick = s.tick + 1
      rw [htick3]

theorem claim_C7_witness :
    (advance (⟨0, [(0, ⟨1, TaskState.Running, 0, 4⟩),
      (1, ⟨2, TaskState.Sleeping, 1, 4⟩)], [], [(1, 1)], some 0, 2,
      0⟩ : Core)).running = some 1 := by
  exact (claim_C7 (⟨0, [(0, ⟨1, TaskState.Running, 0, 4⟩),
    (1, ⟨2, TaskState.Sleeping, 1, 4⟩)], [], [(1, 1)], some 0, 2,
    0⟩ : Core) 0 1 1 rfl (by decide) (by decide) (by decide) (by decide)
    (by decide) (by decide)).1

/-! ### Equal-priority ordering lemmas -/

theorem sublist_drop_left {α : Type} {l' : List α} :
    ∀ (la lb : List α), l'.Sublist (la ++ lb) → (∀ x ∈ l', x ∉ la) →
      l'.Sublist lb := by
  intro la
  induction la with
  | nil =>
    intro lb hs _
    exact hs
  | cons a la2 ih =>
    intro lb hs hx
    cases hs with
    | cons _ h1 =>
      exact ih lb h1 (fun x hxm hc => hx x hxm (List.mem_cons_of_mem a hc))
    | cons₂ _ h1 =>
      exact absurd (List.mem_cons_self a la2)
        (hx a (List.mem_cons_self a _))

theorem sublist_erase_of_not_mem {α : Type} [BEq α] [LawfulBEq α]
    {l' : List α} {e : α} :
    ∀ {l : List α}, l'.Sublist l → e ∉ l' → l'.Sublist (l.erase e) := by
  intro l
  induction l generalizing l' with
  | nil =>
    intro hs _
    simpa using hs
  | cons a l2 ih =>
    intro hs he
    rw [List.erase_cons]
    cases hs with
    | cons _ h1 =>
      by_cases hae : a = e
      · rw [if_pos (by simp [hae])]
        exact h1
      · rw [if_neg (by simp [hae])]
        exact (ih h1 he).cons a
    | cons₂ _ h1 =>
      have hane : a ≠ e := by
        intro hc
        exact he (hc ▸ List.mem_cons_self a _)
      rw [if_neg (by simp [hane])]
      refine List.Sublist.cons₂ a (ih h1 ?_)
      intro hc
      exact he (List.mem_cons_of_mem a hc)

theorem pair_sublist_before {α : Type} {x y : α} :
    ∀ (l1 : List α) {l2 : List α}, [x, y].Sublist (l1 ++ y :: l2) →
      y ∉ l1 → y ∉ l2 → x ≠ y → x ∈ l1 := by
  intro l1
  induction l1 with
  | nil =>
    intro l2 hs _ hyl2 hxy
    cases hs with
    | cons _ h1 =>
      have hyin : y ∈ l2 := h1.subset (by
        show y ∈ [x, y]
        simp)
      exact absurd hyin hyl2
    | cons₂ _ h1 =>
      exact absurd rfl hxy
  | cons a l1t ih =>
    intro l2 hs hys hyl2 hxy
    cases hs with
    | cons _ h1 =>
      have := ih h1 (fun hc => hys (List.mem_cons_of_mem a hc)) hyl2 hxy
      exact List.mem_cons_of_mem a this
    | cons₂ _ h1 =>
      exact List.mem_cons_self _ _

theorem runsBeforeCfg_advance (s : Core) (A B p : Nat)
    (hc : RunsBeforeCfg s A B p) : RunsBeforeCfg (advance s) A B p := by
  obtain ⟨hInv, hAB, hAp, hrqb, hwb, hdisj⟩ := hc
  set t : Nat := s.tick + 1 with hts
  set sp : Core := { s with tick := s.tick + 1 } with hsp
  set s3 : Core := expire t sp with hs3
  obtain ⟨htick3, hrun3, _, _, _, hprio3, hwheel3, hrq3, _⟩ :=
    expire_main t sp.wheel.length sp le_rfl
  have hspw : sp.wheel = s.wheel := rfl
  have hsprq : sp.rq = s.rq := rfl
  have hspregs : sp.regs = s.regs := rfl
  have hsprun : sp.running = s.running := rfl
  have hInv3 : Inv s3 := expire_inv t sp.wheel.length sp le_rfl
    (tick_inv s hInv)
  have hrqb3 : ∀ e ∈ s3.rq, e.1 ≤ p := by
    rw [hs3, hrq3]
    intro e he
    rcases List.mem_append.mp he with hc | hc
    · exact hrqb e (by rw [← hsprq]; exact hc)
    · obtain ⟨we, hwe, hweq⟩ := List.mem_map.mp hc
      have hwmem : we ∈ s.wheel := by
        rw [← hspw]
        exact mem_of_mem_takeWhile hwe
      rw [← hweq]
      show prioOf sp.regs we.1 ≤ p
      rw [hspregs]
      exact hwb we hwmem
  have hwb3 : ∀ e ∈ s3.wheel, prioOf s3.regs e.1 ≤ p := by
    intro e he
    rw [hs3, hprio3, hspregs]
    rw [hs3, hwheel3] at he
    have hwmem : e ∈ s.wheel := by
      rw [← hspw]
      exact (List.dropWhile_sublist _).subset he
    exact hwb e hwmem
  have hAp3 : prioOf s3.regs A = p := by
    rw [hs3, hprio3, hspregs]
    exact hAp
  have hadv : advance s = schedule s3 := rfl
  rw [hadv]
  have hcore : (∀ e ∈ (schedule s3).rq, e.1 ≤ p) ∧
      (([(p, A), (p, B)].Sublist (schedule s3).rq ∧
        (∀ r ∈ (schedule s3).running.toList,
          prioOf (schedule s3).regs r ≤ p) ∧
        (schedule s3).running ≠ some B) ∨
      (schedule s3).running = some A) := by
    rcases hdisj with ⟨hsub, hrb, hnB⟩ | hrunA
    · -- A is still queued ahead of B
      have hsub3 : [(p, A), (p, B)].Sublist s3.rq := by
        rw [hs3, hrq3, hsprq]
        exact hsub.trans (List.sublist_append_left _ _)
      have hApmem : (p, A) ∈ s3.rq := hsub3.subset (by simp)
      have hBpmem : (p, B) ∈ s3.rq := hsub3.subset (by simp)
      have hrb3 : ∀ r ∈ s3.running.toList, prioOf s3.regs r ≤ p := by
        intro r hr
        rw [hs3, hprio3, hspregs]
        rw [hs3, hrun3, hsprun] at hr
        exact hrb r hr
      have hnB3 : s3.running ≠ some B := by
        rw [hs3, hrun3, hsprun]
        exact hnB
      cases hfh : findHighest s3.rq with
      | none =>
        exact absurd ((findHighest_eq_none_iff _).mp hfh)
          (List.ne_nil_of_mem hApmem)
      | some e =>
        have hemem := findHighest_mem hfh
        have he1 : e.1 = p :=
          le_antisymm (hrqb3 e hemem) (findHighest_top hfh (p, A) hApmem)
        have hprioE : prioOf s3.regs e.2 = e.1 := (hInv3.rqOK e hemem).2
        have heB : e.2 ≠ B := by
          intro hcB
          have he : e = (p, B) := by
            obtain ⟨e1, e2⟩ := e
            simp only at he1 hcB
            rw [he1, hcB]
          obtain ⟨m1, m2, hms, hmnone⟩ := find?_split hfh
          have hm1p : ∀ x ∈ m1, x.1 ≠ p := by
            intro x hx hxc
            have := hmnone x hx
            rw [← findHighest_prio hfh, he1] at this
            simp [hxc] at this
          rw [he] at hms
          have hBnotm1 : (p, B) ∉ m1 := fun hc => hm1p (p, B) hc rfl
          have hBnotm2 : (p, B) ∉ m2 := by
            intro hc
            have hnodup := hInv3.rqNodup
            rw [hms, List.map_append, List.map_cons] at hnodup
            have := (List.nodup_append.mp hnodup).2.1
            rw [List.nodup_cons] at this
            exact this.1 (List.mem_map.mpr ⟨(p, B), hc, rfl⟩)
          have hxy : (p, A) ≠ (p, B) := fun hc => hAB (by
            injection hc with h1 h2)
          have hAm1 : (p, A) ∈ m1 := by
            refine pair_sublist_before m1 ?_ hBnotm1 hBnotm2 hxy
            rw [← hms]
            exact hsub3
          exact hm1p (p, A) hAm1 rfl
        cases hrc : s3.running with
        | none =>
          rw [schedule_eq_idle s3 e hfh hrc]
          constructor
          · intro x hx
            exact hrqb3 x (List.mem_of_mem_erase hx)
          · by_cases heA : e = (p, A)
            · right
              show some e.2 = some A
              rw [heA]
            · left
              refine ⟨?_, ?_, ?_⟩
              · show [(p, A), (p, B)].Sublist (s3.rq.erase e)
                refine sublist_erase_of_not_mem hsub3 ?_
                intro hc
                rcases List.mem_cons.mp hc with h1 | h1
                · exact heA h1
                · rw [List.mem_singleton] at h1
                  exact heB (congrArg Prod.snd h1)
              · intro r2 hr2
                simp only [Option.toList_some, List.mem_singleton] at hr2
                rw [hr2]
                show prioOf (updReg s3.regs e.2
                  (setTCBState TaskState.Running)) e.2 ≤ p
                rw [prioOf_setState, hprioE, he1]
              · intro hcB
                exact heB (Option.some.inj hcB)
        | some r =>
          have hrb3r : prioOf s3.regs r ≤ p := hrb3 r (by simp [hrc])
          by_cases hlt : prioOf s3.regs r < e.1
          · rw [schedule_eq_preempt s3 e r hfh hrc hlt]
            have hrneB : r ≠ B := fun hc => hnB3 (by rw [hrc, hc])
            constructor
            · intro x hx
              rcases List.mem_append.mp hx with h1 | h1
              · exact hrqb3 x (List.mem_of_mem_erase h1)
              · have : x = (prioOf s3.regs r, r) := by simpa using h1
                rw [this]
                exact hrb3r
            · by_cases heA : e = (p, A)
              · right
                show some e.2 = some A
                rw [heA]
              · left
                refine ⟨?_, ?_, ?_⟩
                · have hse : [(p, A), (p, B)].Sublist (s3.rq.erase e) := by
                    refine sublist_erase_of_not_mem hsub3 ?_
                    intro hc
                    rcases List.mem_cons.mp hc with h1 | h1
                    · exact heA h1
                    · rw [List.mem_singleton] at h1
                      exact heB (congrArg Prod.snd h1)
                  exact hse.trans (List.sublist_append_left _ _)
                · intro r2 hr2
                  simp only [Option.toList_some, List.mem_singleton] at hr2
                  rw [hr2]
                  show prioOf (updReg (updReg s3.regs e.2
                    (setTCBState TaskState.Running)) r
                    (setTCBState TaskState.Ready)) e.2 ≤ p
                  rw [prioOf_setState, prioOf_setState, hprioE, he1]
                · intro hcB
                  exact heB (Option.some.inj hcB)
          · rw [schedule_eq_keep s3 e r hfh hrc hlt]
            exact ⟨hrqb3, Or.inl ⟨hsub3, hrb3, hnB3⟩⟩
    · -- A already holds the running slot
      have hrA3 : s3.running = some A := by
        rw [hs3, hrun3, hsprun]
        exact hrunA
      cases hfh : findHighest s3.rq with
      | none =>
        rw [schedule_eq_empty s3 hfh]
        exact ⟨hrqb3, Or.inr hrA3⟩
      | some e =>
        have hele : e.1 ≤ p := hrqb3 e (findHighest_mem hfh)
        have hnlt : ¬ prioOf s3.regs A < e.1 := by
          rw [hAp3]
          omega
        rw [schedule_eq_keep s3 e A hfh hrA3 hnlt]
        exact ⟨hrqb3, Or.inr hrA3⟩
  refine ⟨schedule_inv s3 hInv3, hAB, ?_, hcore.1, ?_, hcore.2⟩
  · rw [schedule_prioOf]
    exact hAp3
  · intro e he
    rw [schedule_prioOf]
    rw [schedule_wheel] at he
    exact hwb3 e he

/-- C6: if tasks `A` and `B` have equal priority `p`, both are Ready with
`A` queued ahead of `B`, and no task anywhere has priority above `p`, then
for any number of elapsed ticks `B` never occupies the running slot: under
pure tick advances `A` (or an even earlier equal-priority task) is always
chosen first and, once running, is never preempted by an equal-priority
peer, so `B` cannot start before `A` has run to its next block. -/
theorem claim_C6 (s : Core) (A B p : Nat) (l1 l2 l3 : List (Nat × Nat))
    (hInv : Inv s)
    (hsplit : s.rq = l1 ++ (p, A) :: l2 ++ (p, B) :: l3)
    (hAB : A ≠ B)
    (hrqb : ∀ e ∈ s.rq, e.1 ≤ p)
    (hwb : ∀ e ∈ s.wheel, prioOf s.regs e.1 ≤ p)
    (hrb : ∀ r ∈ s.running.toList, prioOf s.regs r ≤ p) :
    ∀ k, (advanceIter k s).running ≠ some B := by
  have hApm : (p, A) ∈ s.rq := by
    rw [hsplit]
    simp
  have hBpm : (p, B) ∈ s.rq := by
    rw [hsplit]
    simp
  have hnB : s.running ≠ some B := by
    intro hc
    have h1 := hInv.runOK B (by simp [hc])
    have h2 := (hInv.rqOK (p, B) hBpm).1
    rw [h1] at h2
    simp at h2
  have hsub : [(p, A), (p, B)].Sublist s.rq := by
    rw [hsplit]
    have h1 : [(p, A)].Sublist (l1 ++ (p, A) :: l2) :=
      (List.singleton_sublist).mpr (by simp)
    have h2 : [(p, B)].Sublist ((p, B) :: l3) :=
      (List.singleton_sublist).mpr (List.mem_cons_self _ _)
    exact h1.append h2
  have hAp : prioOf s.regs A = p := (hInv.rqOK (p, A) hApm).2
  have hcfg : RunsBeforeCfg s A B p :=
    ⟨hInv, hAB, hAp, hrqb, hwb, Or.inl ⟨hsub, hrb, hnB⟩⟩
  have main : ∀ k, RunsBeforeCfg (advanceIter k s) A B p := by
    intro k
    induction k with
    | zero => exact hcfg
    | succ k ih =>
      rw [advanceIter_succ_out]
      exact runsBeforeCfg_advance _ _ _ _ ih
  intro k
  obtain ⟨_, hAB2, _, _, _, hd⟩ := main k
  rcases hd with ⟨_, _, hn⟩ | hA
  · exact hn
  · rw [hA]
    intro hcon
    exact hAB2 (Option.some.inj hcon)

theorem claim_C6_witness :
    (advanceIter 3 (⟨0, [(0, ⟨1, TaskState.Ready, 0, 4⟩),
      (1, ⟨1, TaskState.Ready, 0, 4⟩)], [(1, 0), (1, 1)], [], none, 2,
      0⟩ : Core)).running ≠ some 1 := by
  refine claim_C6 (⟨0, [(0, ⟨1, TaskState.Ready, 0, 4⟩),
    (1, ⟨1, TaskState.Ready, 0, 4⟩)], [(1, 0), (1, 1)], [], none, 2,
    0⟩ : Core) 0 1 1 [] [] []
    ⟨by decide, by decide, by decide, by decide, by decide, by decide,
      by decide, by decide, by decide⟩
    (by decide) (by decide) (by decide) (by decide) (by decide) 3

end WatchFit
